import Mathlib

/-!
# The upstream-server registry of dnscrypt-proxy (`serversInfo.go`)

A shallow embedding of `ServerStamp`, `ServerInfo`, `ServersInfo` and of the
operations `NewServerStampFromLegacy`, `fetchServerInfo`, `registerServer`,
`refresh` and `getOne`.

Conventions of the embedding.

* Go strings are Lean strings, read as lists of characters. The public-key
  string is the only one whose content is inspected; a character outside ASCII
  is no hexadecimal digit, just as none of its UTF-8 bytes is.
* Byte arrays (`[8]byte`, `[32]byte`, `[]byte`) are lists of naturals.
* The collaborators that live outside the file (`FetchCurrentCert`,
  `net.ResolveUDPAddr`, `net.ResolveTCPAddr`, the constant `TimeoutMin`) are the
  fields of an environment `Env`. Each of them may answer differently on every
  call: its answer is a function of the whole history of effects so far, and
  every effect is appended to that history (`Machine.log`).
* `log.Fatal` ends the process: a function that reaches it has the outcome
  `Res.fatal` and nothing runs after it.
* `sync.RWMutex`: every operation runs as a whole; `registerServer` holds the
  exclusive lock from its first to its last statement.
-/

namespace ServersInfoModel

/-- A Go `error` value, identified by its message. -/
abbrev GoError := String

/-- The struct `ServerStamp` (lines 16-21). -/
structure ServerStamp where
  name : String
  serverAddrStr : String
  serverPkStr : String
  providerName : String
deriving DecidableEq, Repr

/-- The function `NewServerStampFromLegacy` (lines 23-30): the pair of the stamp
and the returned error, which is always `nil`. -/
def NewServerStampFromLegacy (name : String) (serverAddrStr : String)
    (serverPkStr : String) (providerName : String) : ServerStamp × Option GoError :=
  ({ name := name
     serverAddrStr := serverAddrStr
     serverPkStr := serverPkStr
     providerName := providerName }, none)

/-- The value a `*net.UDPAddr` points to. -/
structure UDPAddr where
  IP : List Nat
  Port : Int
  Zone : String
deriving DecidableEq, Repr

/-- The value a `*net.TCPAddr` points to. -/
structure TCPAddr where
  IP : List Nat
  Port : Int
  Zone : String
deriving DecidableEq, Repr

/-- Modelled from the spec: the record `CertInfo` returned by the Negotiator
(magic query, server public key, shared key, crypto construction); its
declaration is in another file of the repository. The enumerated
`CryptoConstruction` tag is a natural number. -/
structure CertInfo where
  MagicQuery : List Nat
  ServerPk : List Nat
  SharedKey : List Nat
  CryptoConstruction : Nat
deriving DecidableEq, Repr

/-- Modelled from the spec: the proxy context handed through to the Negotiator,
which the registry never inspects; its declaration is in another file of the
repository. -/
structure Proxy where
  tag : Nat
deriving DecidableEq, Repr

/-- The struct `ServerInfo` (lines 32-41). -/
structure ServerInfo where
  MagicQuery : List Nat
  ServerPk : List Nat
  SharedKey : List Nat
  CryptoConstruction : Nat
  Name : String
  Timeout : Int
  UDPAddr : UDPAddr
  TCPAddr : TCPAddr
deriving DecidableEq, Repr

/-- The struct `ServersInfo` (lines 43-47), without its lock. -/
structure ServersInfo where
  inner : List ServerInfo
  serverStamps : List ServerStamp
deriving DecidableEq, Repr

/-- The answer of a collaborator that returns `(value, error)`. -/
inductive Reply (α : Type) where
  | ok (value : α)
  | error (e : GoError)
deriving DecidableEq, Repr

/-- One effect on the outside world, with the answer it received. -/
inductive Event where
  | fetchCurrentCert (proxy : Proxy) (serverPk : List Nat) (serverAddrStr : String)
      (providerName : String) (reply : Reply CertInfo)
  | resolveUDPAddr (network : String) (address : String) (reply : Reply UDPAddr)
  | resolveTCPAddr (network : String) (address : String) (reply : Reply TCPAddr)
  | println (text : String)
  | logFatal (text : String)
deriving DecidableEq, Repr

/-- The collaborators of the registry. Each answer may depend on everything
that happened before the call. -/
structure Env where
  FetchCurrentCert : List Event → Proxy → List Nat → String → String → Reply CertInfo
  ResolveUDPAddr : List Event → String → String → Reply UDPAddr
  ResolveTCPAddr : List Event → String → String → Reply TCPAddr
  TimeoutMin : Int

/-- The registry together with the history of effects. -/
structure Machine where
  reg : ServersInfo
  log : List Event
deriving DecidableEq, Repr

/-- The outcome of a function that returns `(value, error)` and may end the
process through `log.Fatal`. -/
inductive Res (α : Type) where
  | ok (value : α)
  | err (e : GoError)
  | fatal (text : String)
deriving DecidableEq, Repr

/-! ## The library functions used by `fetchServerInfo` -/

/-- The constant `ed25519.PublicKeySize`. -/
def PublicKeySize : Nat := 32

/-- The call `strings.Replace(s, ":", "", -1)`: every colon is removed. -/
def stripColons (s : String) : List Char :=
  s.toList.filter (fun c => c ≠ ':')

/-- The value of one hexadecimal digit, upper or lower case
(`reverseHexTable` of `encoding/hex`). -/
def fromHexChar (c : Char) : Option Nat :=
  if 48 ≤ c.toNat ∧ c.toNat ≤ 57 then some (c.toNat - 48)
  else if 97 ≤ c.toNat ∧ c.toNat ≤ 102 then some (c.toNat - 97 + 10)
  else if 65 ≤ c.toNat ∧ c.toNat ≤ 70 then some (c.toNat - 65 + 10)
  else none

/-- The errors of `encoding/hex`. -/
inductive HexError where
  | invalidByte (c : Char)
  | errLength
deriving DecidableEq, Repr

/-- The function `hex.DecodeString`: the bytes decoded before the first error,
and that error if there is one. Digits are read in pairs; an odd digit left
over is `ErrLength`, unless it is itself no digit. -/
def hexDecode : List Char → List Nat × Option HexError
  | [] => ([], none)
  | [p] => ([], some (if fromHexChar p = none then HexError.invalidByte p else HexError.errLength))
  | p :: q :: rest =>
    match fromHexChar p, fromHexChar q with
    | none, _ => ([], some (HexError.invalidByte p))
    | some _, none => ([], some (HexError.invalidByte q))
    | some a, some b => ((a * 16 + b) :: (hexDecode rest).1, (hexDecode rest).2)

/-! ## The operations of the registry -/

/-- The function `fetchServerInfo` (lines 85-113). -/
def fetchServerInfo (env : Env) (proxy : Proxy) (name : String) (stamp : ServerStamp)
    (log : List Event) : Res ServerInfo × List Event :=
  let decoded := hexDecode (stripColons stamp.serverPkStr)
  if decoded.2 ≠ none ∨ decoded.1.length ≠ PublicKeySize then
    (Res.fatal "Invalid public key", log ++ [Event.logFatal "Invalid public key"])
  else
    let serverPk := decoded.1
    let certReply := env.FetchCurrentCert log proxy serverPk stamp.serverAddrStr stamp.providerName
    let log1 := log ++ [Event.fetchCurrentCert proxy serverPk stamp.serverAddrStr
      stamp.providerName certReply]
    match certReply with
    | Reply.error e => (Res.err e, log1)
    | Reply.ok certInfo =>
      let udpReply := env.ResolveUDPAddr log1 "udp" stamp.serverAddrStr
      let log2 := log1 ++ [Event.resolveUDPAddr "udp" stamp.serverAddrStr udpReply]
      match udpReply with
      | Reply.error e => (Res.err e, log2)
      | Reply.ok remoteUDPAddr =>
        let tcpReply := env.ResolveTCPAddr log2 "tcp" stamp.serverAddrStr
        let log3 := log2 ++ [Event.resolveTCPAddr "tcp" stamp.serverAddrStr tcpReply]
        match tcpReply with
        | Reply.error e => (Res.err e, log3)
        | Reply.ok remoteTCPAddr =>
          (Res.ok
            { MagicQuery := certInfo.MagicQuery
              ServerPk := certInfo.ServerPk
              SharedKey := certInfo.SharedKey
              CryptoConstruction := certInfo.CryptoConstruction
              Name := name
              Timeout := env.TimeoutMin
              UDPAddr := remoteUDPAddr
              TCPAddr := remoteTCPAddr }, log3)

/-- The loop of `registerServer` (lines 56-61): the first entry whose `Name` is
that of `newServer` is overwritten; `none` when the loop ends without a
match. -/
def replaceByName (newServer : ServerInfo) : List ServerInfo → Option (List ServerInfo)
  | [] => none
  | oldServer :: rest =>
    if oldServer.Name = newServer.Name then some (newServer :: rest)
    else (replaceByName newServer rest).map (fun tail => oldServer :: tail)

/-- The function `registerServer` (lines 49-65). `Res.ok ()` is the return
value `nil`. -/
def registerServer (env : Env) (proxy : Proxy) (name : String) (stamp : ServerStamp)
    (m : Machine) : Res Unit × Machine :=
  match fetchServerInfo env proxy name stamp m.log with
  | (Res.fatal text, log) => (Res.fatal text, { reg := m.reg, log := log })
  | (Res.err e, log) => (Res.err e, { reg := m.reg, log := log })
  | (Res.ok newServer, log) =>
    match replaceByName newServer m.reg.inner with
    | some inner =>
      (Res.ok (), { reg := { inner := inner, serverStamps := m.reg.serverStamps }, log := log })
    | none =>
      (Res.ok (), { reg := { inner := m.reg.inner ++ [newServer]
                             serverStamps := m.reg.serverStamps ++ [stamp] }, log := log })

/-- The loop of `refresh` (lines 72-75) over the snapshot: the error returned
by `registerServer` is dropped; only the end of the process stops the loop. -/
def refreshLoop (env : Env) (proxy : Proxy) : List ServerStamp → Machine → Res Unit × Machine
  | [], m => (Res.ok (), m)
  | stamp :: rest, m =>
    match registerServer env proxy stamp.name stamp m with
    | (Res.fatal text, m1) => (Res.fatal text, m1)
    | (_, m1) => refreshLoop env proxy rest m1

/-- The function `refresh` (lines 67-76). -/
def refresh (env : Env) (proxy : Proxy) (m : Machine) : Res Unit × Machine :=
  let m0 : Machine := { reg := m.reg, log := m.log ++ [Event.println "Refreshing certificates"] }
  let stamps := m0.reg.serverStamps
  refreshLoop env proxy stamps m0

/-- What a call of `getOne` ends in: a reference to the slot `index`, which
holds `value` at the time of the call, or a run-time failure. -/
inductive Selected where
  | ref (index : Nat) (value : ServerInfo)
  | crashed (text : String)
deriving DecidableEq, Repr

/-- The function `getOne` (lines 78-83). `intn n` is what `rand.Intn(n)`
returns for a positive bound `n`; `rand.Intn` itself fails for the bound 0,
and indexing fails outside the slice. -/
def getOne (intn : Nat → Nat) (m : Machine) : Selected × Machine :=
  if m.reg.inner.length = 0 then (Selected.crashed "invalid argument to Intn", m)
  else
    match m.reg.inner[intn m.reg.inner.length]? with
    | some serverInfo => (Selected.ref (intn m.reg.inner.length) serverInfo, m)
    | none => (Selected.crashed "index out of range", m)

/-- The registry of a process that has just started. -/
def emptyMachine : Machine := { reg := { inner := [], serverStamps := [] }, log := [] }

/-! ## Names for the parts of one call of `fetchServerInfo` -/

/-- The bytes `fetchServerInfo` hands to the Negotiator. -/
def decodedPk (stamp : ServerStamp) : List Nat :=
  (hexDecode (stripColons stamp.serverPkStr)).1

/-- The stamp passes the check of line 87: decoding gives no error and exactly
`PublicKeySize` bytes. -/
def ValidPk (stamp : ServerStamp) : Prop :=
  (hexDecode (stripColons stamp.serverPkStr)).2 = none ∧ (decodedPk stamp).length = PublicKeySize

instance (stamp : ServerStamp) : Decidable (ValidPk stamp) := by
  unfold ValidPk; infer_instance

/-- The answer of the Negotiator to the call of line 90, made when the history
is `log`. -/
def negotiate (env : Env) (proxy : Proxy) (stamp : ServerStamp) (log : List Event) :
    Reply CertInfo :=
  env.FetchCurrentCert log proxy (decodedPk stamp) stamp.serverAddrStr stamp.providerName

/-- The history after the call of line 90. -/
def logAfterCert (env : Env) (proxy : Proxy) (stamp : ServerStamp) (log : List Event) :
    List Event :=
  log ++ [Event.fetchCurrentCert proxy (decodedPk stamp) stamp.serverAddrStr stamp.providerName
    (negotiate env proxy stamp log)]

/-- The answer of the resolver to the call of line 94. -/
def resolveUDP (env : Env) (proxy : Proxy) (stamp : ServerStamp) (log : List Event) :
    Reply UDPAddr :=
  env.ResolveUDPAddr (logAfterCert env proxy stamp log) "udp" stamp.serverAddrStr

/-- The history after the call of line 94. -/
def logAfterUDP (env : Env) (proxy : Proxy) (stamp : ServerStamp) (log : List Event) :
    List Event :=
  logAfterCert env proxy stamp log ++
    [Event.resolveUDPAddr "udp" stamp.serverAddrStr (resolveUDP env proxy stamp log)]

/-- The answer of the resolver to the call of line 98. -/
def resolveTCP (env : Env) (proxy : Proxy) (stamp : ServerStamp) (log : List Event) :
    Reply TCPAddr :=
  env.ResolveTCPAddr (logAfterUDP env proxy stamp log) "tcp" stamp.serverAddrStr

/-- The history after the call of line 98. -/
def logAfterTCP (env : Env) (proxy : Proxy) (stamp : ServerStamp) (log : List Event) :
    List Event :=
  logAfterUDP env proxy stamp log ++
    [Event.resolveTCPAddr "tcp" stamp.serverAddrStr (resolveTCP env proxy stamp log)]

/-- The struct literal of lines 102-111. -/
def assemble (env : Env) (name : String) (certInfo : CertInfo) (remoteUDPAddr : UDPAddr)
    (remoteTCPAddr : TCPAddr) : ServerInfo :=
  { MagicQuery := certInfo.MagicQuery
    ServerPk := certInfo.ServerPk
    SharedKey := certInfo.SharedKey
    CryptoConstruction := certInfo.CryptoConstruction
    Name := name
    Timeout := env.TimeoutMin
    UDPAddr := remoteUDPAddr
    TCPAddr := remoteTCPAddr }

/-! ## Words of the specification -/

/-- A hexadecimal digit, upper or lower case. -/
def IsHexDigit (c : Char) : Prop :=
  ('0' ≤ c ∧ c ≤ '9') ∨ ('a' ≤ c ∧ c ≤ 'f') ∨ ('A' ≤ c ∧ c ≤ 'F')

instance (c : Char) : Decidable (IsHexDigit c) := by
  unfold IsHexDigit; infer_instance

/-- Exactly 64 hexadecimal digits: the text of a 32-byte key. -/
def IsKeyText (l : List Char) : Prop :=
  l.length = 64 ∧ ∀ c ∈ l, IsHexDigit c

instance (l : List Char) : Decidable (IsKeyText l) := by
  unfold IsKeyText; infer_instance

/-! ## Sample data -/

/-- A well-formed key text, with colons between some groups. -/
def sampleKey : String :=
  "0123:4567:89ab:cdef:0123456789ABCDEF0123456789abcdef0123456789abcdef"

/-- A key text that is one digit short. -/
def shortKey : String :=
  "0123456789abcdef0123456789ABCDEF0123456789abcdef0123456789abcde"

def stampA : ServerStamp :=
  { name := "a", serverAddrStr := "203.0.113.1:443", serverPkStr := sampleKey,
    providerName := "2.dnscrypt-cert.a" }

def stampB : ServerStamp :=
  { name := "b", serverAddrStr := "203.0.113.2:443", serverPkStr := sampleKey,
    providerName := "2.dnscrypt-cert.b" }

/-- A stamp named like `stampA` with another address. -/
def stampA2 : ServerStamp :=
  { name := "a", serverAddrStr := "203.0.113.9:443", serverPkStr := sampleKey,
    providerName := "2.dnscrypt-cert.a" }

def stampShort : ServerStamp :=
  { name := "c", serverAddrStr := "203.0.113.3:443", serverPkStr := shortKey,
    providerName := "2.dnscrypt-cert.c" }

def sampleProxy : Proxy := { tag := 0 }

/-- The endpoint a sample resolver gives for an address: its port is the
length of the address text. -/
def sampleUDP (address : String) : UDPAddr := { IP := [203, 0, 113, 1], Port := address.length, Zone := "" }

def sampleTCP (address : String) : TCPAddr := { IP := [203, 0, 113, 1], Port := address.length, Zone := "" }

/-- Collaborators that always succeed; the shared key counts the effects so
far, so that every negotiation gives another key. -/
def okEnv : Env :=
  { FetchCurrentCert := fun log _ serverPk _ _ =>
      Reply.ok { MagicQuery := [113, 55], ServerPk := serverPk, SharedKey := [log.length],
                 CryptoConstruction := 1 }
    ResolveUDPAddr := fun _ _ address => Reply.ok (sampleUDP address)
    ResolveTCPAddr := fun _ _ address => Reply.ok (sampleTCP address)
    TimeoutMin := 1000 }

/-- Collaborators whose Negotiator always fails. -/
def noCertEnv : Env :=
  { okEnv with FetchCurrentCert := fun _ _ _ _ _ => Reply.error "no certificate" }

/-- Collaborators whose UDP resolution always fails. -/
def noUDPEnv : Env :=
  { okEnv with ResolveUDPAddr := fun _ _ _ => Reply.error "no such host" }

/-- A registry holding one entry, named `a`. -/
def sampleMachine : Machine :=
  (registerServer okEnv sampleProxy "a" stampA emptyMachine).2

/-- A registry holding two entries, named `a` and `b`. -/
def twoMachine : Machine :=
  (registerServer okEnv sampleProxy "b" stampB sampleMachine).2

/-! ## Runs of the registry -/

/-- The states a running process can be in: it starts with the empty registry
and calls `registerServer`, with any name and stamp, and `refresh`. A call
that ends the process leaves no state behind. -/
inductive Reachable (env : Env) : Machine → Prop where
  | start : Reachable env emptyMachine
  | register (m : Machine) (proxy : Proxy) (name : String) (stamp : ServerStamp) :
      Reachable env m →
      (∀ text, (registerServer env proxy name stamp m).1 ≠ Res.fatal text) →
      Reachable env (registerServer env proxy name stamp m).2
  | refresh (m : Machine) (proxy : Proxy) :
      Reachable env m →
      (refresh env proxy m).1 = Res.ok () →
      Reachable env (refresh env proxy m).2

/-- One call of `registerServer` as a caller writes it. -/
structure Registration where
  proxy : Proxy
  name : String
  stamp : ServerStamp
deriving DecidableEq, Repr

/-- A sequence of `registerServer` calls, one after the other, all of which
succeed: the `ServerInfo` each call assembled, in the order of the calls, and
the final state. `none` when some call fails. -/
def registerAll (env : Env) : List Registration → Machine → Option (List ServerInfo × Machine)
  | [], m => some ([], m)
  | call :: rest, m =>
    match (fetchServerInfo env call.proxy call.name call.stamp m.log).1,
      registerServer env call.proxy call.name call.stamp m with
    | Res.ok info, (Res.ok (), m1) =>
      match registerAll env rest m1 with
      | some (infos, m2) => some (info :: infos, m2)
      | none => none
    | _, _ => none

/-- The two calls of the specification's example, `a` first. -/
def callsAB : List Registration :=
  [{ proxy := sampleProxy, name := "a", stamp := stampA },
   { proxy := sampleProxy, name := "b", stamp := stampB }]

/-- The same two calls in the other order. -/
def callsBA : List Registration :=
  [{ proxy := sampleProxy, name := "b", stamp := stampB },
   { proxy := sampleProxy, name := "a", stamp := stampA }]

/-! ## One pass of `refresh`, observed -/

/-- The state in which each iteration of the loop of `refresh` begins, in the
order of the iterations: one state for every stamp the loop reaches. -/
def refreshStates (env : Env) (proxy : Proxy) : List ServerStamp → Machine → List Machine
  | [], _ => []
  | stamp :: rest, m =>
    m :: (match registerServer env proxy stamp.name stamp m with
      | (Res.fatal _, _) => []
      | (_, m1) => refreshStates env proxy rest m1)

/-- The state in which the loop of `refresh` begins. -/
def refreshStart (m : Machine) : Machine :=
  { reg := m.reg, log := m.log ++ [Event.println "Refreshing certificates"] }

/-- The entry a slot holds after a registration for its name whose
`fetchServerInfo` had the outcome `r`: the new `ServerInfo` on success, the old
one otherwise. -/
def installed (old : ServerInfo) (r : Res ServerInfo) : ServerInfo :=
  match r with
  | Res.ok newServer => newServer
  | _ => old

/-- The two collections name the same servers, index by index, no name occurs
twice, and every recorded stamp has a valid public key. -/
def Aligned (reg : ServersInfo) : Prop :=
  reg.inner.map (fun x => x.Name) = reg.serverStamps.map (fun st => st.name) ∧
  (reg.serverStamps.map (fun st => st.name)).Nodup ∧
  ∀ st ∈ reg.serverStamps, ValidPk st

/-- The states reachable from the empty registry when every stamp is
registered under its own name: calls `registerServer(proxy, stamp.name, stamp)`
with any stamp, and `refresh`. -/
inductive ReachableOwn (env : Env) : Machine → Prop where
  | start : ReachableOwn env emptyMachine
  | register (m : Machine) (proxy : Proxy) (stamp : ServerStamp) :
      ReachableOwn env m →
      (∀ text, (registerServer env proxy stamp.name stamp m).1 ≠ Res.fatal text) →
      ReachableOwn env (registerServer env proxy stamp.name stamp m).2
  | refresh (m : Machine) (proxy : Proxy) :
      ReachableOwn env m →
      (refresh env proxy m).1 = Res.ok () →
      ReachableOwn env (refresh env proxy m).2

/-- A registry built from the empty registry by registering stamps with
pairwise distinct names, each once and under its own name. The list holds the
stamps handed to `registerServer` so far, in the order of the calls; a call
that returned an error has left the registry as it was. -/
inductive BuiltFrom (env : Env) : List ServerStamp → Machine → Prop where
  | start : BuiltFrom env [] emptyMachine
  | register (stamps : List ServerStamp) (m : Machine) (proxy : Proxy) (stamp : ServerStamp) :
      BuiltFrom env stamps m →
      stamp.name ∉ stamps.map (fun st => st.name) →
      (∀ text, (registerServer env proxy stamp.name stamp m).1 ≠ Res.fatal text) →
      BuiltFrom env (stamps ++ [stamp]) (registerServer env proxy stamp.name stamp m).2

/-- Every entry holds endpoints that the resolvers gave for the address of the
stamp at the same index. -/
def Resolved (env : Env) (reg : ServersInfo) : Prop :=
  ∀ p ∈ List.zip reg.inner reg.serverStamps,
    (∃ log, env.ResolveUDPAddr log "udp" p.2.serverAddrStr = Reply.ok p.1.UDPAddr) ∧
    (∃ log, env.ResolveTCPAddr log "tcp" p.2.serverAddrStr = Reply.ok p.1.TCPAddr)

/-- The registry after `stampA` and then `stampB` have been registered, each
under its own name, on the empty registry. -/
def buildAB (env : Env) : Machine :=
  (registerServer env sampleProxy "b" stampB
    (registerServer env sampleProxy "a" stampA emptyMachine).2).2

/-- Collaborators that work until the first `refresh` begins; from then on the
Negotiator fails for the address of `stampA` and succeeds for every other
one. -/
def staleEnv : Env :=
  { okEnv with
    FetchCurrentCert := fun log _ serverPk serverAddrStr _ =>
      if Event.println "Refreshing certificates" ∈ log ∧ serverAddrStr = stampA.serverAddrStr
      then Reply.error "no certificate"
      else Reply.ok { MagicQuery := [113, 55], ServerPk := serverPk, SharedKey := [log.length],
                      CryptoConstruction := 1 } }

/-- Collaborators like `staleEnv` whose UDP resolution, too, fails once the
first `refresh` has begun. -/
def flakyEnv : Env :=
  { staleEnv with
    ResolveUDPAddr := fun log _ address =>
      if Event.println "Refreshing certificates" ∈ log then Reply.error "no such host"
      else Reply.ok (sampleUDP address) }

/-- The state in which the second iteration of the loop of `refresh` begins,
on the registry `buildAB env`. -/
def secondIteration (env : Env) : Machine :=
  (registerServer env sampleProxy "a" stampA (refreshStart (buildAB env))).2

/-- The registry after `stampA` has been registered under the name `x`, which
is not the name of the stamp. -/
def misnamed : Machine :=
  (registerServer okEnv sampleProxy "x" stampA emptyMachine).2

/-- A second well-formed key text. -/
def otherKey : String :=
  "ffeeddccbbaa99887766554433221100ffeeddccbbaa99887766554433221100"

/-- A stamp named like `stampA` with another address, key and provider. -/
def stampA3 : ServerStamp :=
  { name := "a", serverAddrStr := "198.51.100.77:8443", serverPkStr := otherKey,
    providerName := "2.dnscrypt-cert.a3" }

/-- The state after `s1` has been registered under its own name and `s2` has
then been registered under that same name. -/
def registeredTwice (env : Env) (proxy1 proxy2 : Proxy) (s1 s2 : ServerStamp)
    (m : Machine) : Machine :=
  (registerServer env proxy2 s1.name s2 (registerServer env proxy1 s1.name s1 m).2).2

/-- The state in which a pass of `refresh` on `m` stands after the loop has
handled the stamps `earlier`, the first stamps of its snapshot. -/
def refreshedThrough (env : Env) (proxy : Proxy) (earlier : List ServerStamp)
    (m : Machine) : Machine :=
  (refreshLoop env proxy earlier (refreshStart m)).2

/-- A registry holding one entry, named `b`. -/
def onlyB : Machine :=
  (registerServer okEnv sampleProxy "b" stampB emptyMachine).2

/-! ## One call of `fetchServerInfo` -/

theorem fetchServerInfo_invalid (env : Env) (proxy : Proxy) (name : String)
    (stamp : ServerStamp) (log : List Event) (h : ¬ ValidPk stamp) :
    fetchServerInfo env proxy name stamp log =
      (Res.fatal "Invalid public key", log ++ [Event.logFatal "Invalid public key"]) := by
  have h1 : (hexDecode (stripColons stamp.serverPkStr)).2 ≠ none ∨
      (hexDecode (stripColons stamp.serverPkStr)).1.length ≠ PublicKeySize := by
    by_contra hc
    push_neg at hc
    exact h ⟨hc.1, hc.2⟩
  simp only [fetchServerInfo]
  rw [if_pos h1]

theorem fetchServerInfo_valid (env : Env) (proxy : Proxy) (name : String)
    (stamp : ServerStamp) (log : List Event) (h : ValidPk stamp) :
    fetchServerInfo env proxy name stamp log =
      match negotiate env proxy stamp log with
      | Reply.error e => (Res.err e, logAfterCert env proxy stamp log)
      | Reply.ok certInfo =>
        match resolveUDP env proxy stamp log with
        | Reply.error e => (Res.err e, logAfterUDP env proxy stamp log)
        | Reply.ok remoteUDPAddr =>
          match resolveTCP env proxy stamp log with
          | Reply.error e => (Res.err e, logAfterTCP env proxy stamp log)
          | Reply.ok remoteTCPAddr =>
            (Res.ok (assemble env name certInfo remoteUDPAddr remoteTCPAddr),
              logAfterTCP env proxy stamp log) := by
  have h1 : ¬ ((hexDecode (stripColons stamp.serverPkStr)).2 ≠ none ∨
      (hexDecode (stripColons stamp.serverPkStr)).1.length ≠ PublicKeySize) := by
    rintro (hc | hc)
    · exact hc h.1
    · exact hc h.2
  simp only [fetchServerInfo]
  rw [if_neg h1]
  rfl

theorem fetchServerInfo_ok_iff (env : Env) (proxy : Proxy) (name : String)
    (stamp : ServerStamp) (log : List Event) (info : ServerInfo) :
    (fetchServerInfo env proxy name stamp log).1 = Res.ok info ↔
      ValidPk stamp ∧ ∃ certInfo remoteUDPAddr remoteTCPAddr,
        negotiate env proxy stamp log = Reply.ok certInfo ∧
        resolveUDP env proxy stamp log = Reply.ok remoteUDPAddr ∧
        resolveTCP env proxy stamp log = Reply.ok remoteTCPAddr ∧
        info = assemble env name certInfo remoteUDPAddr remoteTCPAddr := by
  by_cases hv : ValidPk stamp
  · rw [fetchServerInfo_valid env proxy name stamp log hv]
    cases hn : negotiate env proxy stamp log with
    | error e => simp [hv]
    | ok certInfo =>
      cases hu : resolveUDP env proxy stamp log with
      | error e => simp [hv]
      | ok udp =>
        cases ht : resolveTCP env proxy stamp log with
        | error e => simp [hv]
        | ok tcp =>
          simp only [hv, true_and, Res.ok.injEq, Reply.ok.injEq]
          constructor
          · intro h
            exact ⟨certInfo, udp, tcp, rfl, rfl, rfl, h.symm⟩
          · rintro ⟨c, u, t, rfl, rfl, rfl, h⟩
            exact h.symm
  · rw [fetchServerInfo_invalid env proxy name stamp log hv]
    simp [hv]

theorem fetchServerInfo_ok_name (env : Env) (proxy : Proxy) (name : String)
    (stamp : ServerStamp) (log : List Event) (info : ServerInfo)
    (h : (fetchServerInfo env proxy name stamp log).1 = Res.ok info) : info.Name = name := by
  obtain ⟨_, c, u, t, _, _, _, rfl⟩ := (fetchServerInfo_ok_iff env proxy name stamp log info).1 h
  rfl

theorem fetchServerInfo_fatal_iff (env : Env) (proxy : Proxy) (name : String)
    (stamp : ServerStamp) (log : List Event) (text : String) :
    (fetchServerInfo env proxy name stamp log).1 = Res.fatal text ↔
      ¬ ValidPk stamp ∧ text = "Invalid public key" := by
  by_cases hv : ValidPk stamp
  · rw [fetchServerInfo_valid env proxy name stamp log hv]
    cases hn : negotiate env proxy stamp log with
    | error e => simp [hv]
    | ok certInfo =>
      cases hu : resolveUDP env proxy stamp log with
      | error e => simp [hv]
      | ok udp =>
        cases ht : resolveTCP env proxy stamp log with
        | error e => simp [hv]
        | ok tcp => simp [hv]
  · rw [fetchServerInfo_invalid env proxy name stamp log hv]
    simp only [Res.fatal.injEq, hv, not_false_eq_true, true_and]
    exact eq_comm

/-! ## The loop of `registerServer` -/

theorem replaceByName_eq_none (newServer : ServerInfo) (l : List ServerInfo) :
    replaceByName newServer l = none ↔ ∀ x ∈ l, x.Name ≠ newServer.Name := by
  induction l with
  | nil => simp [replaceByName]
  | cons a rest ih =>
    by_cases h : a.Name = newServer.Name
    · simp [replaceByName, h]
    · simp [replaceByName, h, ih]

theorem replaceByName_eq_some (newServer : ServerInfo) (l l2 : List ServerInfo)
    (h : replaceByName newServer l = some l2) :
    ∃ pre old post, l = pre ++ old :: post ∧ (∀ x ∈ pre, x.Name ≠ newServer.Name) ∧
      old.Name = newServer.Name ∧ l2 = pre ++ newServer :: post := by
  induction l generalizing l2 with
  | nil => simp [replaceByName] at h
  | cons a rest ih =>
    by_cases hn : a.Name = newServer.Name
    · simp only [replaceByName, hn, if_true, Option.some.injEq] at h
      exact ⟨[], a, rest, rfl, by simp, hn, by simp [h]⟩
    · simp only [replaceByName, hn, if_false] at h
      cases ht : replaceByName newServer rest with
      | none => simp [ht] at h
      | some tail =>
      rw [ht] at h
      simp only [Option.map, Option.some.injEq] at h
      subst h
      obtain ⟨pre, old, post, rfl, hpre, hold, rfl⟩ := ih tail ht
      refine ⟨a :: pre, old, post, rfl, ?_, hold, rfl⟩
      intro x hx
      rcases List.mem_cons.1 hx with rfl | hx
      · exact hn
      · exact hpre x hx

theorem replaceByName_names (newServer : ServerInfo) (l l2 : List ServerInfo)
    (h : replaceByName newServer l = some l2) :
    l2.map (fun x => x.Name) = l.map (fun x => x.Name) := by
  obtain ⟨pre, old, post, rfl, _, hold, rfl⟩ := replaceByName_eq_some newServer l l2 h
  simp [hold]

/-- Under pairwise distinct names the loop overwrites every entry bearing the
name, which is the only one. -/
theorem replaceByName_nodup (newServer : ServerInfo) (l : List ServerInfo)
    (hnd : (l.map (fun x => x.Name)).Nodup) (hex : ∃ x ∈ l, x.Name = newServer.Name) :
    replaceByName newServer l =
      some (l.map (fun x => if x.Name = newServer.Name then newServer else x)) := by
  induction l with
  | nil => simp at hex
  | cons a rest ih =>
    simp only [List.map_cons, List.nodup_cons, List.mem_map, not_exists, not_and] at hnd
    by_cases hn : a.Name = newServer.Name
    · simp only [replaceByName, hn, if_true, List.map_cons, Option.some.injEq, List.cons.injEq,
        true_and]
      symm
      conv_rhs => rw [← List.map_id rest]
      apply List.map_congr_left
      intro x hx
      have : x.Name ≠ newServer.Name := by
        intro hc
        exact hnd.1 x hx (hc.trans hn.symm)
      simp [this]
    · obtain ⟨x, hx, hxn⟩ := hex
      rcases List.mem_cons.1 hx with rfl | hx
      · exact absurd hxn hn
      · simp [replaceByName, hn, ih hnd.2 ⟨x, hx, hxn⟩]

/-! ## One call of `registerServer` -/

theorem registerServer_of_err (env : Env) (proxy : Proxy) (name : String)
    (stamp : ServerStamp) (m : Machine) (e : GoError)
    (h : (fetchServerInfo env proxy name stamp m.log).1 = Res.err e) :
    registerServer env proxy name stamp m =
      (Res.err e, { reg := m.reg, log := (fetchServerInfo env proxy name stamp m.log).2 }) := by
  unfold registerServer
  split <;> simp_all

theorem registerServer_of_fatal (env : Env) (proxy : Proxy) (name : String)
    (stamp : ServerStamp) (m : Machine) (text : String)
    (h : (fetchServerInfo env proxy name stamp m.log).1 = Res.fatal text) :
    registerServer env proxy name stamp m =
      (Res.fatal text, { reg := m.reg, log := (fetchServerInfo env proxy name stamp m.log).2 }) := by
  unfold registerServer
  split <;> simp_all

theorem registerServer_of_ok (env : Env) (proxy : Proxy) (name : String)
    (stamp : ServerStamp) (m : Machine) (newServer : ServerInfo)
    (h : (fetchServerInfo env proxy name stamp m.log).1 = Res.ok newServer) :
    registerServer env proxy name stamp m =
      (Res.ok (),
        { reg := match replaceByName newServer m.reg.inner with
            | some inner => { inner := inner, serverStamps := m.reg.serverStamps }
            | none => { inner := m.reg.inner ++ [newServer]
                        serverStamps := m.reg.serverStamps ++ [stamp] }
          log := (fetchServerInfo env proxy name stamp m.log).2 }) := by
  unfold registerServer
  split
  · simp_all
  · simp_all
  · rename_i info log heq
    rw [heq] at h
    simp only [Res.ok.injEq] at h
    subst h
    rw [heq]
    split <;> simp_all

theorem registerServer_ok_iff (env : Env) (proxy : Proxy) (name : String)
    (stamp : ServerStamp) (m : Machine) :
    (registerServer env proxy name stamp m).1 = Res.ok () ↔
      ∃ newServer, (fetchServerInfo env proxy name stamp m.log).1 = Res.ok newServer := by
  cases h : (fetchServerInfo env proxy name stamp m.log).1 with
  | ok info => simp [registerServer_of_ok env proxy name stamp m info h]
  | err e => simp [registerServer_of_err env proxy name stamp m e h]
  | fatal t => simp [registerServer_of_fatal env proxy name stamp m t h]

/-! ## Hexadecimal decoding -/

theorem fromHexChar_ne_none (c : Char) : fromHexChar c ≠ none ↔ IsHexDigit c := by
  unfold fromHexChar IsHexDigit
  have h : ∀ a b : Char, a ≤ b ↔ a.toNat ≤ b.toNat := by
    intro a b
    exact Iff.rfl
  simp only [h]
  have e0 : ('0' : Char).toNat = 48 := rfl
  have e9 : ('9' : Char).toNat = 57 := rfl
  have ea : ('a' : Char).toNat = 97 := rfl
  have ef : ('f' : Char).toNat = 102 := rfl
  have eA : ('A' : Char).toNat = 65 := rfl
  have eF : ('F' : Char).toNat = 70 := rfl
  rw [e0, e9, ea, ef, eA, eF]
  split_ifs <;> simp_all

theorem hexDecode_none (l : List Char) :
    ((hexDecode l).2 = none ↔ (l.length % 2 = 0 ∧ ∀ c ∈ l, fromHexChar c ≠ none)) ∧
    ((hexDecode l).2 = none → (hexDecode l).1.length * 2 = l.length) := by
  induction l using hexDecode.induct with
  | case1 => simp [hexDecode]
  | case2 p => simp [hexDecode]
  | case3 p q rest hp => simp [hexDecode, hp]
  | case4 p q rest a hq hp => simp [hexDecode, hp, hq]
  | case5 p q rest a b hq hp ih =>
    simp only [hexDecode, hp, hq, List.length_cons, List.mem_cons, forall_eq_or_imp]
    constructor
    · rw [ih.1]
      simp
      omega
    · intro h
      have := ih.2 h
      omega

theorem validPk_iff_keyText (stamp : ServerStamp) :
    ValidPk stamp ↔ IsKeyText (stripColons stamp.serverPkStr) := by
  unfold ValidPk IsKeyText decodedPk PublicKeySize
  have h := hexDecode_none (stripColons stamp.serverPkStr)
  constructor
  · rintro ⟨h1, h2⟩
    have h3 := h.2 h1
    refine ⟨by omega, ?_⟩
    intro c hc
    exact (fromHexChar_ne_none c).1 ((h.1.1 h1).2 c hc)
  · rintro ⟨h1, h2⟩
    have h3 : (hexDecode (stripColons stamp.serverPkStr)).2 = none := by
      rw [h.1]
      refine ⟨by omega, ?_⟩
      intro c hc
      exact (fromHexChar_ne_none c).2 (h2 c hc)
    have h4 := h.2 h3
    exact ⟨h3, by omega⟩

/-! ## Failed registrations -/

/-- C1. For every registry state, name and stamp with a valid public key: when
the Negotiator fails, or it succeeds and UDP resolution fails, or both succeed
and TCP resolution fails, `registerServer` returns that very error, and the
entry collection and the stamp collection are what they were before. -/
theorem registerServer_error_keeps_registry (env : Env) (proxy : Proxy) (name : String)
    (stamp : ServerStamp) (m : Machine) (e : GoError) (hpk : ValidPk stamp)
    (hfail : negotiate env proxy stamp m.log = Reply.error e ∨
      ((∃ certInfo, negotiate env proxy stamp m.log = Reply.ok certInfo) ∧
        resolveUDP env proxy stamp m.log = Reply.error e) ∨
      ((∃ certInfo, negotiate env proxy stamp m.log = Reply.ok certInfo) ∧
        (∃ remoteUDPAddr, resolveUDP env proxy stamp m.log = Reply.ok remoteUDPAddr) ∧
        resolveTCP env proxy stamp m.log = Reply.error e)) :
    (registerServer env proxy name stamp m).1 = Res.err e ∧
    (registerServer env proxy name stamp m).2.reg.inner = m.reg.inner ∧
    (registerServer env proxy name stamp m).2.reg.serverStamps = m.reg.serverStamps := by
  have hf : (fetchServerInfo env proxy name stamp m.log).1 = Res.err e := by
    rw [fetchServerInfo_valid env proxy name stamp m.log hpk]
    rcases hfail with h | ⟨⟨c, hc⟩, h⟩ | ⟨⟨c, hc⟩, ⟨u, hu⟩, h⟩
    · rw [h]
    · rw [hc, h]
    · rw [hc, hu, h]
  rw [registerServer_of_err env proxy name stamp m e hf]
  exact ⟨rfl, rfl, rfl⟩

theorem registerServer_error_keeps_registry_witness :
    ValidPk stampB ∧
    negotiate noCertEnv sampleProxy stampB sampleMachine.log = Reply.error "no certificate" ∧
    (registerServer noCertEnv sampleProxy "b" stampB sampleMachine).1 = Res.err "no certificate" ∧
    (registerServer noCertEnv sampleProxy "b" stampB sampleMachine).2.reg.inner =
      sampleMachine.reg.inner ∧
    (registerServer noCertEnv sampleProxy "b" stampB sampleMachine).2.reg.serverStamps =
      sampleMachine.reg.serverStamps :=
  ⟨by decide, rfl,
    registerServer_error_keeps_registry noCertEnv sampleProxy "b" stampB sampleMachine
      "no certificate" (by decide) (Or.inl rfl)⟩

/-! ## The public key check -/

/-- C6. For every stamp, registration ends in the fatal outcome
"Invalid public key" exactly when the key text, colons removed, fails to decode
or decodes to other than 32 bytes, which is exactly when it is not a text of 64
hexadecimal digits. When it does, the only effect is the fatal message: no call
of the Negotiator or of a resolver is in the history, and the registry is
unchanged. No other text is ever fatal. -/
theorem registerServer_fatal_iff_bad_key (env : Env) (proxy : Proxy) (name : String)
    (stamp : ServerStamp) (m : Machine) :
    ((registerServer env proxy name stamp m).1 = Res.fatal "Invalid public key" ↔
      ((hexDecode (stripColons stamp.serverPkStr)).2 ≠ none ∨
        (hexDecode (stripColons stamp.serverPkStr)).1.length ≠ 32)) ∧
    ((registerServer env proxy name stamp m).1 = Res.fatal "Invalid public key" ↔
      ¬ IsKeyText (stripColons stamp.serverPkStr)) ∧
    ((registerServer env proxy name stamp m).1 = Res.fatal "Invalid public key" →
      (registerServer env proxy name stamp m).2 =
        { reg := m.reg, log := m.log ++ [Event.logFatal "Invalid public key"] }) ∧
    (∀ text, (registerServer env proxy name stamp m).1 = Res.fatal text →
      text = "Invalid public key") := by
  have key : (registerServer env proxy name stamp m).1 = Res.fatal "Invalid public key" ↔
      ¬ ValidPk stamp := by
    by_cases hv : ValidPk stamp
    · simp only [hv, not_true_eq_false, iff_false]
      intro hc
      cases hf : (fetchServerInfo env proxy name stamp m.log).1 with
      | ok info => rw [registerServer_of_ok env proxy name stamp m info hf] at hc; simp at hc
      | err e => rw [registerServer_of_err env proxy name stamp m e hf] at hc; simp at hc
      | fatal t => exact ((fetchServerInfo_fatal_iff env proxy name stamp m.log t).1 hf).1 hv
    · simp only [hv, not_false_eq_true, iff_true]
      have hf := (fetchServerInfo_fatal_iff env proxy name stamp m.log "Invalid public key").2
        ⟨hv, rfl⟩
      rw [registerServer_of_fatal env proxy name stamp m _ hf]
  refine ⟨?_, ?_, ?_, ?_⟩
  · rw [key]
    unfold ValidPk decodedPk PublicKeySize
    constructor
    · intro h
      by_contra hc
      push_neg at hc
      exact h hc
    · rintro (h | h) ⟨h1, h2⟩
      · exact h h1
      · exact h h2
  · rw [key, validPk_iff_keyText]
  · intro h
    have hv := key.1 h
    have hf := (fetchServerInfo_fatal_iff env proxy name stamp m.log "Invalid public key").2
      ⟨hv, rfl⟩
    rw [registerServer_of_fatal env proxy name stamp m _ hf,
      fetchServerInfo_invalid env proxy name stamp m.log hv]
  · intro text h
    cases hf : (fetchServerInfo env proxy name stamp m.log).1 with
    | ok info => rw [registerServer_of_ok env proxy name stamp m info hf] at h; simp at h
    | err e => rw [registerServer_of_err env proxy name stamp m e hf] at h; simp at h
    | fatal t =>
      rw [registerServer_of_fatal env proxy name stamp m t hf] at h
      simp only [Res.fatal.injEq] at h
      rw [← h]
      exact ((fetchServerInfo_fatal_iff env proxy name stamp m.log t).1 hf).2

theorem registerServer_fatal_iff_bad_key_witness :
    (registerServer okEnv sampleProxy "c" stampShort sampleMachine).1 =
      Res.fatal "Invalid public key" ∧
    ¬ IsKeyText (stripColons stampShort.serverPkStr) ∧
    (registerServer okEnv sampleProxy "c" stampShort sampleMachine).2 =
      { reg := sampleMachine.reg
        log := sampleMachine.log ++ [Event.logFatal "Invalid public key"] } :=
  ⟨by decide, by decide,
    (registerServer_fatal_iff_bad_key okEnv sampleProxy "c" stampShort sampleMachine).2.2.1
      (by decide)⟩

/-! ## Overwriting an entry -/

/-- C10. For every registry state: when `registerServer` succeeds for a name
that already has an entry, the stamp collection is unchanged, the entry count
is unchanged, the first entry bearing the name is replaced by the new
`ServerInfo`, and every other entry is unchanged. -/
theorem registerServer_existing_name (env : Env) (proxy : Proxy) (name : String)
    (stamp : ServerStamp) (m : Machine)
    (hok : (registerServer env proxy name stamp m).1 = Res.ok ())
    (hex : ∃ x ∈ m.reg.inner, x.Name = name) :
    ∃ newServer pre old post,
      (fetchServerInfo env proxy name stamp m.log).1 = Res.ok newServer ∧
      m.reg.inner = pre ++ old :: post ∧ (∀ x ∈ pre, x.Name ≠ name) ∧ old.Name = name ∧
      (registerServer env proxy name stamp m).2.reg.inner = pre ++ newServer :: post ∧
      (registerServer env proxy name stamp m).2.reg.serverStamps = m.reg.serverStamps ∧
      (registerServer env proxy name stamp m).2.reg.inner.length = m.reg.inner.length := by
  obtain ⟨newServer, hf⟩ := (registerServer_ok_iff env proxy name stamp m).1 hok
  have hname := fetchServerInfo_ok_name env proxy name stamp m.log newServer hf
  rw [registerServer_of_ok env proxy name stamp m newServer hf]
  cases hr : replaceByName newServer m.reg.inner with
  | none =>
    obtain ⟨x, hx, hxn⟩ := hex
    exact absurd (hxn.trans hname.symm) ((replaceByName_eq_none newServer m.reg.inner).1 hr x hx)
  | some l2 =>
    obtain ⟨pre, old, post, h1, h2, h3, h4⟩ := replaceByName_eq_some newServer m.reg.inner l2 hr
    refine ⟨newServer, pre, old, post, hf, h1, ?_, h3.trans hname, ?_, rfl, ?_⟩
    · intro x hx
      rw [← hname]
      exact h2 x hx
    · exact h4
    · simp [h4, h1]

theorem registerServer_existing_name_witness :
    (registerServer okEnv sampleProxy "a" stampA2 sampleMachine).1 = Res.ok () ∧
    ∃ newServer pre old post,
      (fetchServerInfo okEnv sampleProxy "a" stampA2 sampleMachine.log).1 = Res.ok newServer ∧
      sampleMachine.reg.inner = pre ++ old :: post ∧ (∀ x ∈ pre, x.Name ≠ "a") ∧
      old.Name = "a" ∧
      (registerServer okEnv sampleProxy "a" stampA2 sampleMachine).2.reg.inner =
        pre ++ newServer :: post ∧
      (registerServer okEnv sampleProxy "a" stampA2 sampleMachine).2.reg.serverStamps =
        sampleMachine.reg.serverStamps ∧
      (registerServer okEnv sampleProxy "a" stampA2 sampleMachine).2.reg.inner.length =
        sampleMachine.reg.inner.length :=
  ⟨by decide,
    registerServer_existing_name okEnv sampleProxy "a" stampA2 sampleMachine (by decide)
      (by decide)⟩

/-! ## Selection -/

theorem getOne_of_lt (intn : Nat → Nat) (m : Machine)
    (h : intn m.reg.inner.length < m.reg.inner.length) :
    ∃ v, m.reg.inner[intn m.reg.inner.length]? = some v ∧
      getOne intn m = (Selected.ref (intn m.reg.inner.length) v, m) := by
  have hne : m.reg.inner.length ≠ 0 := by omega
  refine ⟨m.reg.inner[intn m.reg.inner.length], List.getElem?_eq_getElem h, ?_⟩
  unfold getOne
  rw [if_neg hne, List.getElem?_eq_getElem h]

/-- C4. For every registry with `K ≥ 1` entries and every value `r < K` the
random source returns for the bound `K`, `getOne` returns the entry at index
`r` and leaves the registry unchanged. Each slot is therefore returned for
exactly one of the `K` possible draws (one draw in `K`), and a selection does
not depend on the selections made before. A draw `r < K` exists only when
`K ≥ 1`, so that bound is no separate hypothesis. -/
theorem getOne_returns_drawn_slot (m : Machine) :
    (∀ intn : Nat → Nat, intn m.reg.inner.length < m.reg.inner.length →
      ∃ v, m.reg.inner[intn m.reg.inner.length]? = some v ∧
        getOne intn m = (Selected.ref (intn m.reg.inner.length) v, m)) ∧
    (∀ i v, m.reg.inner[i]? = some v →
      ∃! r, r < m.reg.inner.length ∧ (getOne (fun _ => r) m).1 = Selected.ref i v) ∧
    (∀ i v, m.reg.inner[i]? = some v →
      ((Finset.range m.reg.inner.length).filter
        (fun r => (getOne (fun _ => r) m).1 = Selected.ref i v)).card = 1) ∧
    (∀ intn1 intn2 : Nat → Nat, getOne intn2 (getOne intn1 m).2 = getOne intn2 m) := by
  have sel : ∀ r, r < m.reg.inner.length → ∀ i v, m.reg.inner[i]? = some v →
      ((getOne (fun _ => r) m).1 = Selected.ref i v ↔ r = i) := by
    intro r hr i v hv
    obtain ⟨w, hw, hg⟩ := getOne_of_lt (fun _ => r) m hr
    rw [hg]
    simp only [Selected.ref.injEq]
    constructor
    · exact fun h => h.1
    · rintro rfl
      rw [hv] at hw
      exact ⟨rfl, (Option.some.inj hw).symm⟩
  have hlt : ∀ i v, m.reg.inner[i]? = some v → i < m.reg.inner.length := by
    intro i v hv
    by_contra hc
    rw [List.getElem?_eq_none (by omega)] at hv
    exact absurd hv (by simp)
  refine ⟨fun intn h => getOne_of_lt intn m h, ?_, ?_, ?_⟩
  · intro i v hv
    refine ⟨i, ⟨hlt i v hv, (sel i (hlt i v hv) i v hv).2 rfl⟩, ?_⟩
    rintro r ⟨hr, hsel⟩
    exact (sel r hr i v hv).1 hsel
  · intro i v hv
    have : (Finset.range m.reg.inner.length).filter
        (fun r => (getOne (fun _ => r) m).1 = Selected.ref i v) = {i} := by
      ext r
      simp only [Finset.mem_filter, Finset.mem_range, Finset.mem_singleton]
      constructor
      · rintro ⟨hr, hsel⟩
        exact (sel r hr i v hv).1 hsel
      · rintro rfl
        exact ⟨hlt r v hv, (sel r (hlt r v hv) r v hv).2 rfl⟩
    rw [this, Finset.card_singleton]
  · intro intn1 intn2
    have : (getOne intn1 m).2 = m := by
      unfold getOne
      split
      · rfl
      · split <;> rfl
    rw [this]

theorem getOne_returns_drawn_slot_witness :
    1 ≤ twoMachine.reg.inner.length ∧
    (∃ v, twoMachine.reg.inner[1]? = some v ∧ v.Name = "b" ∧
      getOne (fun _ => 1) twoMachine = (Selected.ref 1 v, twoMachine)) :=
  ⟨by decide, by
    obtain ⟨v, hv, hg⟩ :=
      (getOne_returns_drawn_slot twoMachine).1 (fun _ => 1) (by decide)
    refine ⟨v, hv, ?_, hg⟩
    have h2 : twoMachine.reg.inner[1]? = some (twoMachine.reg.inner[1]) := rfl
    rw [hv] at h2
    rw [Option.some.inj h2]
    decide⟩

/-- C5. After one successful `registerServer` call on the empty registry,
`getOne` returns the `ServerInfo` assembled by that call, which bears the
registered name, for every value the random source can return for the
bound 1. -/
theorem getOne_after_first_registration (env : Env) (proxy : Proxy) (name : String)
    (stamp : ServerStamp) (intn : Nat → Nat)
    (hok : (registerServer env proxy name stamp emptyMachine).1 = Res.ok ())
    (hintn : intn 1 < 1) :
    ∃ info, (fetchServerInfo env proxy name stamp emptyMachine.log).1 = Res.ok info ∧
      info.Name = name ∧
      getOne intn (registerServer env proxy name stamp emptyMachine).2 =
        (Selected.ref 0 info, (registerServer env proxy name stamp emptyMachine).2) := by
  obtain ⟨info, hf⟩ := (registerServer_ok_iff env proxy name stamp emptyMachine).1 hok
  refine ⟨info, hf, fetchServerInfo_ok_name env proxy name stamp _ info hf, ?_⟩
  rw [registerServer_of_ok env proxy name stamp emptyMachine info hf]
  have h0 : intn 1 = 0 := by omega
  simp [getOne, emptyMachine, replaceByName, h0]

theorem getOne_after_first_registration_witness :
    (registerServer okEnv sampleProxy "a" stampA emptyMachine).1 = Res.ok () ∧
    ∃ info, (fetchServerInfo okEnv sampleProxy "a" stampA emptyMachine.log).1 = Res.ok info ∧
      info.Name = "a" ∧
      getOne (fun _ => 0) (registerServer okEnv sampleProxy "a" stampA emptyMachine).2 =
        (Selected.ref 0 info, (registerServer okEnv sampleProxy "a" stampA emptyMachine).2) :=
  ⟨by decide,
    getOne_after_first_registration okEnv sampleProxy "a" stampA (fun _ => 0) (by decide)
      (by decide)⟩

/-! ## Entry names stay pairwise distinct -/

theorem registerServer_names_nodup (env : Env) (proxy : Proxy) (name : String)
    (stamp : ServerStamp) (m : Machine) (h : (m.reg.inner.map (fun x => x.Name)).Nodup) :
    ((registerServer env proxy name stamp m).2.reg.inner.map (fun x => x.Name)).Nodup := by
  cases hf : (fetchServerInfo env proxy name stamp m.log).1 with
  | err e => rw [registerServer_of_err env proxy name stamp m e hf]; exact h
  | fatal t => rw [registerServer_of_fatal env proxy name stamp m t hf]; exact h
  | ok info =>
    rw [registerServer_of_ok env proxy name stamp m info hf]
    cases hr : replaceByName info m.reg.inner with
    | some l2 =>
      simp only
      rw [replaceByName_names info m.reg.inner l2 hr]
      exact h
    | none =>
      simp only [List.map_append, List.map_cons, List.map_nil]
      rw [List.nodup_append]
      refine ⟨h, List.nodup_singleton _, ?_⟩
      intro n hn hn2
      simp only [List.mem_singleton] at hn2
      subst hn2
      obtain ⟨x, hx, hxn⟩ := List.mem_map.1 hn
      exact (replaceByName_eq_none info m.reg.inner).1 hr x hx hxn

theorem refreshLoop_names_nodup (env : Env) (proxy : Proxy) (stamps : List ServerStamp)
    (m : Machine) (h : (m.reg.inner.map (fun x => x.Name)).Nodup) :
    ((refreshLoop env proxy stamps m).2.reg.inner.map (fun x => x.Name)).Nodup := by
  induction stamps generalizing m with
  | nil => exact h
  | cons st rest ih =>
    have h1 := registerServer_names_nodup env proxy st.name st m h
    unfold refreshLoop
    split
    · rename_i text m1 heq
      rw [heq] at h1
      exact h1
    · rename_i r m1 hne heq
      rw [heq] at h1
      exact ih m1 h1

theorem reachable_names_nodup (env : Env) (m : Machine) (h : Reachable env m) :
    (m.reg.inner.map (fun x => x.Name)).Nodup := by
  induction h with
  | start => simp [emptyMachine]
  | register m proxy name stamp _ _ ih => exact registerServer_names_nodup env proxy name stamp m ih
  | refresh m proxy _ _ ih =>
    unfold refresh
    exact refreshLoop_names_nodup env proxy _ _ ih

theorem not_fatal_of_ok (r : Res Unit) (h : r = Res.ok ()) : ∀ text, r ≠ Res.fatal text := by
  intro text hc
  rw [h] at hc
  exact Res.noConfusion hc

theorem reachable_sampleMachine : Reachable okEnv sampleMachine :=
  Reachable.register emptyMachine sampleProxy "a" stampA Reachable.start
    (not_fatal_of_ok _ (by decide))

/-! ## Registering a name again -/

theorem filter_name_after_update (n : String) (newServer : ServerInfo) (l : List ServerInfo)
    (hnew : newServer.Name = n) (hnd : (l.map (fun x => x.Name)).Nodup)
    (hex : ∃ x ∈ l, x.Name = n) :
    (l.map (fun x => if x.Name = n then newServer else x)).filter (fun x => x.Name = n) =
      [newServer] := by
  induction l with
  | nil => simp at hex
  | cons a rest ih =>
    simp only [List.map_cons, List.nodup_cons, List.mem_map, not_exists, not_and] at hnd
    by_cases ha : a.Name = n
    · have hrest : ∀ x ∈ rest, x.Name ≠ n := fun x hx hc => hnd.1 x hx (hc.trans ha.symm)
      have hmap : rest.map (fun x => if x.Name = n then newServer else x) = rest := by
        conv_rhs => rw [← List.map_id rest]
        apply List.map_congr_left
        intro x hx
        simp [hrest x hx]
      simp only [List.map_cons, ha, if_true, hmap]
      rw [List.filter_cons_of_pos (by simp [hnew])]
      congr 1
      rw [List.filter_eq_nil_iff]
      intro x hx
      simp [hrest x hx]
    · obtain ⟨x, hx, hxn⟩ := hex
      rcases List.mem_cons.1 hx with rfl | hx
      · exact absurd hxn ha
      · simp only [List.map_cons, ha, if_false]
        rw [List.filter_cons_of_neg (by simp [ha])]
        exact ih hnd.2 ⟨x, hx, hxn⟩

theorem registerServer_ok_has_name (env : Env) (proxy : Proxy) (name : String)
    (stamp : ServerStamp) (m : Machine)
    (hok : (registerServer env proxy name stamp m).1 = Res.ok ()) :
    ∃ x ∈ (registerServer env proxy name stamp m).2.reg.inner, x.Name = name := by
  obtain ⟨info, hf⟩ := (registerServer_ok_iff env proxy name stamp m).1 hok
  have hname := fetchServerInfo_ok_name env proxy name stamp m.log info hf
  rw [registerServer_of_ok env proxy name stamp m info hf]
  cases hr : replaceByName info m.reg.inner with
  | some l2 =>
    obtain ⟨pre, old, post, _, _, _, h4⟩ := replaceByName_eq_some info m.reg.inner l2 hr
    exact ⟨info, by simp [h4], hname⟩
  | none => exact ⟨info, by simp, hname⟩

/-- C2. For every name and every state reachable from the empty registry:
after two successful `registerServer` calls with that name, whatever the
stamps and the answers of the collaborators, exactly one entry bears the name,
and it is the `ServerInfo` assembled by the second call from the second
negotiation, with `Timeout` equal to `TimeoutMin`. When the registry was empty
before the two calls, that entry is the whole entry collection. -/
theorem registerServer_twice_same_name (env : Env) (m : Machine) (hm : Reachable env m)
    (name : String) (proxy1 proxy2 : Proxy) (stamp1 stamp2 : ServerStamp)
    (h1 : (registerServer env proxy1 name stamp1 m).1 = Res.ok ())
    (h2 : (registerServer env proxy2 name stamp2
      (registerServer env proxy1 name stamp1 m).2).1 = Res.ok ()) :
    ∃ certInfo remoteUDPAddr remoteTCPAddr info,
      negotiate env proxy2 stamp2 (registerServer env proxy1 name stamp1 m).2.log =
        Reply.ok certInfo ∧
      resolveUDP env proxy2 stamp2 (registerServer env proxy1 name stamp1 m).2.log =
        Reply.ok remoteUDPAddr ∧
      resolveTCP env proxy2 stamp2 (registerServer env proxy1 name stamp1 m).2.log =
        Reply.ok remoteTCPAddr ∧
      info = assemble env name certInfo remoteUDPAddr remoteTCPAddr ∧
      info.Name = name ∧ info.Timeout = env.TimeoutMin ∧
      info.MagicQuery = certInfo.MagicQuery ∧ info.ServerPk = certInfo.ServerPk ∧
      info.SharedKey = certInfo.SharedKey ∧
      info.CryptoConstruction = certInfo.CryptoConstruction ∧
      (registerServer env proxy2 name stamp2
        (registerServer env proxy1 name stamp1 m).2).2.reg.inner.filter
          (fun x => x.Name = name) = [info] ∧
      (m.reg.inner = [] →
        (registerServer env proxy2 name stamp2
          (registerServer env proxy1 name stamp1 m).2).2.reg.inner = [info]) := by
  have hnd1 := registerServer_names_nodup env proxy1 name stamp1 m
    (reachable_names_nodup env m hm)
  have hex1 := registerServer_ok_has_name env proxy1 name stamp1 m h1
  obtain ⟨info, hf⟩ := (registerServer_ok_iff env proxy2 name stamp2 _).1 h2
  have hname := fetchServerInfo_ok_name env proxy2 name stamp2 _ info hf
  obtain ⟨_, certInfo, udp, tcp, hn, hu, ht, hinfo⟩ :=
    (fetchServerInfo_ok_iff env proxy2 name stamp2 _ info).1 hf
  refine ⟨certInfo, udp, tcp, info, hn, hu, ht, hinfo, hname, ?_, ?_, ?_, ?_, ?_, ?_, ?_⟩
  · rw [hinfo]; rfl
  · rw [hinfo]; rfl
  · rw [hinfo]; rfl
  · rw [hinfo]; rfl
  · rw [hinfo]; rfl
  · rw [registerServer_of_ok env proxy2 name stamp2 _ info hf]
    have hex2 : ∃ x ∈ (registerServer env proxy1 name stamp1 m).2.reg.inner,
        x.Name = info.Name := by
      rw [hname]; exact hex1
    rw [replaceByName_nodup info _ hnd1 hex2]
    simp only [hname]
    exact filter_name_after_update name info _ hname hnd1 hex1
  · intro hempty
    obtain ⟨info1, hf1⟩ := (registerServer_ok_iff env proxy1 name stamp1 m).1 h1
    have hname1 := fetchServerInfo_ok_name env proxy1 name stamp1 _ info1 hf1
    have hm1 : (registerServer env proxy1 name stamp1 m).2.reg.inner = [info1] := by
      rw [registerServer_of_ok env proxy1 name stamp1 m info1 hf1, hempty]
      simp [replaceByName]
    rw [registerServer_of_ok env proxy2 name stamp2 _ info hf, hm1]
    simp [replaceByName, hname, hname1]

theorem registerServer_twice_same_name_witness :
    Reachable okEnv sampleMachine ∧
    (registerServer okEnv sampleProxy "b" stampB sampleMachine).1 = Res.ok () ∧
    ∃ certInfo remoteUDPAddr remoteTCPAddr info,
      negotiate okEnv sampleProxy stampA2
        (registerServer okEnv sampleProxy "b" stampB sampleMachine).2.log = Reply.ok certInfo ∧
      resolveUDP okEnv sampleProxy stampA2
        (registerServer okEnv sampleProxy "b" stampB sampleMachine).2.log =
          Reply.ok remoteUDPAddr ∧
      resolveTCP okEnv sampleProxy stampA2
        (registerServer okEnv sampleProxy "b" stampB sampleMachine).2.log =
          Reply.ok remoteTCPAddr ∧
      info = assemble okEnv "b" certInfo remoteUDPAddr remoteTCPAddr ∧
      info.Name = "b" ∧ info.Timeout = okEnv.TimeoutMin ∧
      info.MagicQuery = certInfo.MagicQuery ∧ info.ServerPk = certInfo.ServerPk ∧
      info.SharedKey = certInfo.SharedKey ∧
      info.CryptoConstruction = certInfo.CryptoConstruction ∧
      (registerServer okEnv sampleProxy "b" stampA2
        (registerServer okEnv sampleProxy "b" stampB sampleMachine).2).2.reg.inner.filter
          (fun x => x.Name = "b") = [info] ∧
      (sampleMachine.reg.inner = [] →
        (registerServer okEnv sampleProxy "b" stampA2
          (registerServer okEnv sampleProxy "b" stampB sampleMachine).2).2.reg.inner = [info]) :=
  ⟨reachable_sampleMachine, by decide,
    registerServer_twice_same_name okEnv sampleMachine reachable_sampleMachine
      "b" sampleProxy sampleProxy stampB stampA2 (by decide) (by decide)⟩

/-! ## Registering distinct names -/

theorem registerAll_cons_some (env : Env) (call : Registration) (rest : List Registration)
    (m : Machine) (infos : List ServerInfo) (m2 : Machine)
    (h : registerAll env (call :: rest) m = some (infos, m2)) :
    ∃ info tail,
      (fetchServerInfo env call.proxy call.name call.stamp m.log).1 = Res.ok info ∧
      registerAll env rest (registerServer env call.proxy call.name call.stamp m).2 =
        some (tail, m2) ∧
      infos = info :: tail := by
  cases hf : (fetchServerInfo env call.proxy call.name call.stamp m.log).1 with
  | err e =>
    simp [registerAll, hf] at h
  | fatal t =>
    simp [registerAll, hf] at h
  | ok info =>
    have hreg := registerServer_of_ok env call.proxy call.name call.stamp m info hf
    cases hrest : registerAll env rest
        (registerServer env call.proxy call.name call.stamp m).2 with
    | none =>
      rw [hreg] at hrest
      simp [registerAll, hf, hreg, hrest] at h
    | some r =>
      obtain ⟨tail, m3⟩ := r
      refine ⟨info, tail, rfl, ?_, ?_⟩
      · rw [hreg] at hrest
        simp only [registerAll, hf, hreg, hrest, Option.some.injEq, Prod.mk.injEq] at h
        rw [h.2]
      · rw [hreg] at hrest
        simp only [registerAll, hf, hreg, hrest, Option.some.injEq, Prod.mk.injEq] at h
        exact h.1.symm

/-- Calls with pairwise distinct names, none of which has an entry yet, append
their entries and stamps in the order of the calls. -/
theorem registerAll_fresh_names (env : Env) (calls : List Registration) (m : Machine)
    (infos : List ServerInfo) (m2 : Machine)
    (hnd : (calls.map (fun c => c.name)).Nodup)
    (hfresh : ∀ c ∈ calls, ∀ x ∈ m.reg.inner, x.Name ≠ c.name)
    (h : registerAll env calls m = some (infos, m2)) :
    m2.reg.inner = m.reg.inner ++ infos ∧
    m2.reg.serverStamps = m.reg.serverStamps ++ calls.map (fun c => c.stamp) ∧
    infos.map (fun x => x.Name) = calls.map (fun c => c.name) := by
  induction calls generalizing m infos with
  | nil =>
    simp only [registerAll, Option.some.injEq, Prod.mk.injEq] at h
    obtain ⟨rfl, rfl⟩ := h
    simp
  | cons call rest ih =>
    obtain ⟨info, tail, hf, hrest, rfl⟩ := registerAll_cons_some env call rest m infos m2 h
    have hname := fetchServerInfo_ok_name env call.proxy call.name call.stamp m.log info hf
    simp only [List.map_cons, List.nodup_cons, List.mem_map, not_exists, not_and] at hnd
    have hnone : replaceByName info m.reg.inner = none := by
      rw [replaceByName_eq_none]
      intro x hx
      rw [hname]
      exact hfresh call (List.mem_cons_self _ _) x hx
    have hreg := registerServer_of_ok env call.proxy call.name call.stamp m info hf
    rw [hnone] at hreg
    have hfresh2 : ∀ c ∈ rest,
        ∀ x ∈ (registerServer env call.proxy call.name call.stamp m).2.reg.inner,
          x.Name ≠ c.name := by
      intro c hc x hx
      rw [hreg] at hx
      simp only [List.mem_append, List.mem_singleton] at hx
      rcases hx with hx | rfl
      · exact hfresh c (List.mem_cons_of_mem _ hc) x hx
      · rw [hname]
        exact fun heq => hnd.1 c hc heq.symm
    obtain ⟨i1, i2, i3⟩ := ih _ tail hnd.2 hfresh2 hrest
    rw [hreg] at i1 i2
    simp only at i1 i2
    refine ⟨?_, ?_, ?_⟩
    · rw [i1]; simp
    · rw [i2]; simp
    · simp [hname, i3]

/-- C3. An interleaving of `registerServer` calls is an order of whole calls,
each of which holds the exclusive lock throughout. For every list of calls
with pairwise distinct names and every order `calls2` of them, all successful
and applied to the empty registry: the entry collection is the list of the
`ServerInfo` values the calls assembled, in the order of the calls, each under
the name of its call; the stamp collection is the list of their stamps in the
same order; the entry count is the number of calls; and each name occurs
exactly once among the entry names. -/
theorem registerAll_distinct_names (env : Env) (calls calls2 : List Registration)
    (infos : List ServerInfo) (m : Machine)
    (hnd : (calls.map (fun c => c.name)).Nodup) (hperm : calls2.Perm calls)
    (hrun : registerAll env calls2 emptyMachine = some (infos, m)) :
    m.reg.inner = infos ∧
    infos.map (fun x => x.Name) = calls2.map (fun c => c.name) ∧
    m.reg.serverStamps = calls2.map (fun c => c.stamp) ∧
    m.reg.inner.length = calls.length ∧
    m.reg.serverStamps.length = calls.length ∧
    (∀ c ∈ calls, (m.reg.inner.map (fun x => x.Name)).count c.name = 1) ∧
    (∀ x ∈ m.reg.inner, ∃ c ∈ calls, x.Name = c.name) := by
  have hnd2 : (calls2.map (fun c => c.name)).Nodup :=
    (List.Perm.nodup_iff (hperm.map _)).2 hnd
  obtain ⟨h1, h2, h3⟩ := registerAll_fresh_names env calls2 emptyMachine infos m hnd2
    (by intro c _ x hx; simp [emptyMachine] at hx) hrun
  simp only [emptyMachine, List.nil_append] at h1 h2
  have hlen : infos.length = calls2.length := by
    have := congrArg List.length h3
    simpa using this
  refine ⟨h1, h3, h2, ?_, ?_, ?_, ?_⟩
  · rw [h1, hlen, hperm.length_eq]
  · rw [h2, List.length_map, hperm.length_eq]
  · intro c hc
    rw [h1, h3]
    apply List.count_eq_one_of_mem hnd2
    exact List.mem_map.2 ⟨c, hperm.mem_iff.2 hc, rfl⟩
  · intro x hx
    rw [h1] at hx
    have hxn : x.Name ∈ infos.map (fun x => x.Name) := List.mem_map.2 ⟨x, hx, rfl⟩
    rw [h3] at hxn
    obtain ⟨c, hc, hcn⟩ := List.mem_map.1 hxn
    exact ⟨c, hperm.mem_iff.1 hc, hcn.symm⟩

theorem registerAll_distinct_names_witness :
    (callsAB.map (fun c => c.name)).Nodup ∧ callsBA.Perm callsAB ∧
    (∃ infos m, registerAll okEnv callsBA emptyMachine = some (infos, m) ∧
      m.reg.inner = infos ∧
      infos.map (fun x => x.Name) = ["b", "a"] ∧
      m.reg.serverStamps = [stampB, stampA] ∧
      m.reg.inner.length = 2) := by
  have hnd : (callsAB.map (fun c => c.name)).Nodup := by decide
  have hperm : callsBA.Perm callsAB := List.Perm.swap _ _ _
  refine ⟨hnd, hperm, ?_⟩
  cases hrun : registerAll okEnv callsBA emptyMachine with
  | none => exact absurd hrun (by decide)
  | some r =>
    obtain ⟨infos, m⟩ := r
    have h := registerAll_distinct_names okEnv callsAB callsBA infos m hnd hperm hrun
    exact ⟨infos, m, rfl, h.1, h.2.1, h.2.2.1, h.2.2.2.1⟩

/-! ## The loop of `refresh` -/

theorem refreshLoop_cons (env : Env) (proxy : Proxy) (stamp : ServerStamp)
    (rest : List ServerStamp) (m : Machine)
    (h : ∀ text, (registerServer env proxy stamp.name stamp m).1 ≠ Res.fatal text) :
    refreshLoop env proxy (stamp :: rest) m =
      refreshLoop env proxy rest (registerServer env proxy stamp.name stamp m).2 := by
  rw [refreshLoop]
  split
  · rename_i text m1 heq
    exact absurd (congrArg Prod.fst heq) (h text)
  · rename_i r m1 _ heq
    rw [heq]

theorem refreshStates_cons (env : Env) (proxy : Proxy) (stamp : ServerStamp)
    (rest : List ServerStamp) (m : Machine)
    (h : ∀ text, (registerServer env proxy stamp.name stamp m).1 ≠ Res.fatal text) :
    refreshStates env proxy (stamp :: rest) m =
      m :: refreshStates env proxy rest (registerServer env proxy stamp.name stamp m).2 := by
  rw [refreshStates]
  split
  · rename_i text m1 heq
    exact absurd (congrArg Prod.fst heq) (h text)
  · rename_i r m1 _ heq
    rw [heq]

theorem installed_name (old : ServerInfo) (env : Env) (proxy : Proxy) (name : String)
    (stamp : ServerStamp) (log : List Event) (h : old.Name = name) :
    (installed old (fetchServerInfo env proxy name stamp log).1).Name = name := by
  cases hf : (fetchServerInfo env proxy name stamp log).1 with
  | ok info => exact fetchServerInfo_ok_name env proxy name stamp log info hf
  | err e => exact h
  | fatal t => exact h

/-- A registration with a valid key, for a name that has an entry, among
pairwise distinct names: the process goes on, the stamps stay, and the entry of
that name becomes what `installed` says. -/
theorem registerServer_present (env : Env) (proxy : Proxy) (name : String)
    (stamp : ServerStamp) (m : Machine) (hv : ValidPk stamp)
    (hnd : (m.reg.inner.map (fun x => x.Name)).Nodup)
    (hex : ∃ x ∈ m.reg.inner, x.Name = name) :
    (∀ text, (registerServer env proxy name stamp m).1 ≠ Res.fatal text) ∧
    (registerServer env proxy name stamp m).2.reg.serverStamps = m.reg.serverStamps ∧
    (registerServer env proxy name stamp m).2.reg.inner =
      m.reg.inner.map (fun x =>
        if x.Name = name then installed x (fetchServerInfo env proxy name stamp m.log).1
        else x) := by
  cases hf : (fetchServerInfo env proxy name stamp m.log).1 with
  | fatal t => exact absurd hv ((fetchServerInfo_fatal_iff env proxy name stamp m.log t).1 hf).1
  | err e =>
    rw [registerServer_of_err env proxy name stamp m e hf]
    refine ⟨fun text hc => Res.noConfusion hc, rfl, ?_⟩
    simp [installed]
  | ok info =>
    have hname := fetchServerInfo_ok_name env proxy name stamp m.log info hf
    rw [registerServer_of_ok env proxy name stamp m info hf]
    have hex2 : ∃ x ∈ m.reg.inner, x.Name = info.Name := by rw [hname]; exact hex
    rw [replaceByName_nodup info m.reg.inner hnd hex2]
    refine ⟨fun text hc => Res.noConfusion hc, rfl, ?_⟩
    simp [installed, hname]

theorem registerServer_log (env : Env) (proxy : Proxy) (name : String)
    (stamp : ServerStamp) (m : Machine) :
    (registerServer env proxy name stamp m).2.log =
      (fetchServerInfo env proxy name stamp m.log).2 := by
  cases hf : (fetchServerInfo env proxy name stamp m.log).1 with
  | ok info => rw [registerServer_of_ok env proxy name stamp m info hf]
  | err e => rw [registerServer_of_err env proxy name stamp m e hf]
  | fatal t => rw [registerServer_of_fatal env proxy name stamp m t hf]

theorem fetchServerInfo_log_grows (env : Env) (proxy : Proxy) (name : String)
    (stamp : ServerStamp) (log : List Event) :
    ∀ ev ∈ log, ev ∈ (fetchServerInfo env proxy name stamp log).2 := by
  intro ev hev
  by_cases hv : ValidPk stamp
  · rw [fetchServerInfo_valid env proxy name stamp log hv]
    cases negotiate env proxy stamp log with
    | error e => simp [logAfterCert, hev]
    | ok certInfo =>
      cases resolveUDP env proxy stamp log with
      | error e => simp [logAfterUDP, logAfterCert, hev]
      | ok udp =>
        cases resolveTCP env proxy stamp log with
        | error e => simp [logAfterTCP, logAfterUDP, logAfterCert, hev]
        | ok tcp => simp [logAfterTCP, logAfterUDP, logAfterCert, hev]
  · rw [fetchServerInfo_invalid env proxy name stamp log hv]
    simp [hev]

/-- With a valid key the Negotiator is called, and the call is in the history
afterwards. -/
theorem fetchServerInfo_log_cert (env : Env) (proxy : Proxy) (name : String)
    (stamp : ServerStamp) (log : List Event) (hv : ValidPk stamp) :
    Event.fetchCurrentCert proxy (decodedPk stamp) stamp.serverAddrStr stamp.providerName
      (negotiate env proxy stamp log) ∈ (fetchServerInfo env proxy name stamp log).2 := by
  have h1 : Event.fetchCurrentCert proxy (decodedPk stamp) stamp.serverAddrStr
      stamp.providerName (negotiate env proxy stamp log) ∈ logAfterCert env proxy stamp log := by
    simp [logAfterCert]
  have h2 : Event.fetchCurrentCert proxy (decodedPk stamp) stamp.serverAddrStr
      stamp.providerName (negotiate env proxy stamp log) ∈ logAfterUDP env proxy stamp log :=
    List.mem_append_left _ h1
  have h3 : Event.fetchCurrentCert proxy (decodedPk stamp) stamp.serverAddrStr
      stamp.providerName (negotiate env proxy stamp log) ∈ logAfterTCP env proxy stamp log :=
    List.mem_append_left _ h2
  rw [fetchServerInfo_valid env proxy name stamp log hv]
  cases hn : negotiate env proxy stamp log with
  | error e => rw [hn] at h1; exact h1
  | ok certInfo =>
    cases hu : resolveUDP env proxy stamp log with
    | error e => rw [hn] at h2; exact h2
    | ok udp =>
      cases ht : resolveTCP env proxy stamp log with
      | error e => rw [hn] at h3; exact h3
      | ok tcp => rw [hn] at h3; exact h3

theorem refreshLoop_log_grows (env : Env) (proxy : Proxy) (stamps : List ServerStamp)
    (m : Machine) : ∀ ev ∈ m.log, ev ∈ (refreshLoop env proxy stamps m).2.log := by
  induction stamps generalizing m with
  | nil => exact fun ev hev => hev
  | cons st rest ih =>
    intro ev hev
    have h1 : ev ∈ (registerServer env proxy st.name st m).2.log := by
      rw [registerServer_log]
      exact fetchServerInfo_log_grows env proxy st.name st m.log ev hev
    unfold refreshLoop
    split
    · rename_i text m1 heq
      rw [heq] at h1
      exact h1
    · rename_i r m1 _ heq
      rw [heq] at h1
      exact ih m1 ev h1

/-- The loop of `refresh` over stamps with valid keys and pairwise distinct
names, each of which has an entry, in a registry with pairwise distinct entry
names. -/
theorem refreshLoop_present (env : Env) (proxy : Proxy) (stamps : List ServerStamp)
    (m : Machine) (hnd : (m.reg.inner.map (fun x => x.Name)).Nodup)
    (hsnd : (stamps.map (fun st => st.name)).Nodup)
    (hv : ∀ st ∈ stamps, ValidPk st)
    (hex : ∀ st ∈ stamps, ∃ x ∈ m.reg.inner, x.Name = st.name) :
    (refreshLoop env proxy stamps m).1 = Res.ok () ∧
    (refreshLoop env proxy stamps m).2.reg.serverStamps = m.reg.serverStamps ∧
    (refreshLoop env proxy stamps m).2.reg.inner.map (fun x => x.Name) =
      m.reg.inner.map (fun x => x.Name) ∧
    (refreshStates env proxy stamps m).length = stamps.length ∧
    (∀ (k : Nat) (st : ServerStamp) (pre : Machine), stamps[k]? = some st →
      (refreshStates env proxy stamps m)[k]? = some pre →
      ∀ (i : Nat) (old : ServerInfo), m.reg.inner[i]? = some old → old.Name = st.name →
        (refreshLoop env proxy stamps m).2.reg.inner[i]? =
          some (installed old (fetchServerInfo env proxy st.name st pre.log).1)) ∧
    (∀ (i : Nat) (old : ServerInfo), m.reg.inner[i]? = some old →
      old.Name ∉ stamps.map (fun st => st.name) →
      (refreshLoop env proxy stamps m).2.reg.inner[i]? = some old) ∧
    (∀ (k : Nat) (st : ServerStamp) (pre : Machine), stamps[k]? = some st →
      (refreshStates env proxy stamps m)[k]? = some pre →
      Event.fetchCurrentCert proxy (decodedPk st) st.serverAddrStr st.providerName
        (negotiate env proxy st pre.log) ∈ (refreshLoop env proxy stamps m).2.log) := by
  induction stamps generalizing m with
  | nil =>
    refine ⟨rfl, rfl, rfl, rfl, ?_, ?_, ?_⟩
    · intro k st pre hk
      simp at hk
    · intro i old hi _
      exact hi
    · intro k st pre hk
      simp at hk
  | cons stamp rest ih =>
    simp only [List.map_cons, List.nodup_cons, List.mem_map, not_exists, not_and] at hsnd
    obtain ⟨hnf, hst, hin⟩ := registerServer_present env proxy stamp.name stamp m
      (hv stamp (List.mem_cons_self _ _)) hnd (hex stamp (List.mem_cons_self _ _))
    have hnames : (registerServer env proxy stamp.name stamp m).2.reg.inner.map
        (fun x => x.Name) = m.reg.inner.map (fun x => x.Name) := by
      rw [hin, List.map_map]
      apply List.map_congr_left
      intro x _
      by_cases hx : x.Name = stamp.name
      · have hi := installed_name x env proxy stamp.name stamp m.log hx
        show (if x.Name = stamp.name then
          installed x (fetchServerInfo env proxy stamp.name stamp m.log).1 else x).Name = x.Name
        rw [if_pos hx, hi, hx]
      · show (if x.Name = stamp.name then
          installed x (fetchServerInfo env proxy stamp.name stamp m.log).1 else x).Name = x.Name
        rw [if_neg hx]
    have hnd1 : ((registerServer env proxy stamp.name stamp m).2.reg.inner.map
        (fun x => x.Name)).Nodup := by rw [hnames]; exact hnd
    have hex1 : ∀ st ∈ rest,
        ∃ x ∈ (registerServer env proxy stamp.name stamp m).2.reg.inner, x.Name = st.name := by
      intro st hst1
      obtain ⟨x, hx, hxn⟩ := hex st (List.mem_cons_of_mem _ hst1)
      have : st.name ∈ (registerServer env proxy stamp.name stamp m).2.reg.inner.map
          (fun x => x.Name) := by
        rw [hnames]
        exact List.mem_map.2 ⟨x, hx, hxn⟩
      obtain ⟨y, hy, hyn⟩ := List.mem_map.1 this
      exact ⟨y, hy, hyn⟩
    obtain ⟨i1, i2, i3, i4, i5, i6, i7⟩ := ih (registerServer env proxy stamp.name stamp m).2 hnd1
      hsnd.2 (fun st hst1 => hv st (List.mem_cons_of_mem _ hst1)) hex1
    rw [refreshLoop_cons env proxy stamp rest m hnf, refreshStates_cons env proxy stamp rest m hnf]
    refine ⟨i1, i2.trans hst, i3.trans hnames, by simp [i4], ?_, ?_, ?_⟩
    · intro k st pre hk hpre i old hi hold
      cases k with
      | zero =>
        simp only [List.getElem?_cons_zero, Option.some.injEq] at hk hpre
        subst hk hpre
        apply i6
        · rw [hin, List.getElem?_map, hi]
          simp [hold]
        · rw [installed_name old env proxy stamp.name stamp m.log hold]
          intro hc
          obtain ⟨y, hy, hyn⟩ := List.mem_map.1 hc
          exact hsnd.1 y hy hyn
      | succ k =>
        simp only [List.getElem?_cons_succ] at hk hpre
        have hmem : st ∈ rest := List.getElem?_mem hk
        have hne : old.Name ≠ stamp.name := by
          rw [hold]
          exact fun hc => hsnd.1 st hmem hc
        apply i5 k st pre hk hpre i old _ hold
        rw [hin, List.getElem?_map, hi]
        simp [hne]
    · intro i old hi hold
      simp only [List.map_cons, List.mem_cons, not_or] at hold
      apply i6
      · rw [hin, List.getElem?_map, hi]
        simp [hold.1]
      · exact hold.2
    · intro k st pre hk hpre
      cases k with
      | zero =>
        simp only [List.getElem?_cons_zero, Option.some.injEq] at hk hpre
        subst hk hpre
        apply refreshLoop_log_grows
        rw [registerServer_log]
        exact fetchServerInfo_log_cert env proxy stamp.name stamp m.log
          (hv stamp (List.mem_cons_self _ _))
      | succ k =>
        simp only [List.getElem?_cons_succ] at hk hpre
        exact i7 k st pre hk hpre

/-! ## Registries whose stamps are registered under their own names -/

theorem aligned_empty : Aligned emptyMachine.reg := by
  refine ⟨rfl, ?_, ?_⟩
  · simp [emptyMachine]
  · intro st hst
    simp [emptyMachine] at hst

theorem aligned_length (reg : ServersInfo) (h : Aligned reg) :
    reg.inner.length = reg.serverStamps.length := by
  have := congrArg List.length h.1
  simpa using this

theorem aligned_has_entry (reg : ServersInfo) (h : Aligned reg) :
    ∀ st ∈ reg.serverStamps, ∃ x ∈ reg.inner, x.Name = st.name := by
  intro st hst
  have : st.name ∈ reg.inner.map (fun x => x.Name) := by
    rw [h.1]
    exact List.mem_map.2 ⟨st, hst, rfl⟩
  obtain ⟨x, hx, hxn⟩ := List.mem_map.1 this
  exact ⟨x, hx, hxn⟩

theorem aligned_names_nodup (reg : ServersInfo) (h : Aligned reg) :
    (reg.inner.map (fun x => x.Name)).Nodup := by
  rw [h.1]
  exact h.2.1

theorem aligned_at (reg : ServersInfo) (h : Aligned reg) (i : Nat) (x : ServerInfo)
    (hx : reg.inner[i]? = some x) :
    ∃ st, reg.serverStamps[i]? = some st ∧ st.name = x.Name := by
  have h1 : (reg.inner.map (fun x => x.Name))[i]? = some x.Name := by
    rw [List.getElem?_map, hx]
    rfl
  rw [h.1, List.getElem?_map] at h1
  cases hs : reg.serverStamps[i]? with
  | none => rw [hs] at h1; simp at h1
  | some st =>
    rw [hs] at h1
    simp only [Option.map_some', Option.some.injEq] at h1
    exact ⟨st, rfl, h1⟩

theorem aligned_at_stamp (reg : ServersInfo) (h : Aligned reg) (i : Nat) (st : ServerStamp)
    (hs : reg.serverStamps[i]? = some st) :
    ∃ x, reg.inner[i]? = some x ∧ x.Name = st.name := by
  have h1 : (reg.serverStamps.map (fun st => st.name))[i]? = some st.name := by
    rw [List.getElem?_map, hs]
    rfl
  rw [← h.1, List.getElem?_map] at h1
  cases hx : reg.inner[i]? with
  | none => rw [hx] at h1; simp at h1
  | some x =>
    rw [hx] at h1
    simp only [Option.map_some', Option.some.injEq] at h1
    exact ⟨x, rfl, h1⟩

/-- Registering a stamp under its own name keeps the two collections
aligned. -/
theorem registerServer_own_aligned (env : Env) (proxy : Proxy) (stamp : ServerStamp)
    (m : Machine) (h : Aligned m.reg) :
    Aligned (registerServer env proxy stamp.name stamp m).2.reg := by
  cases hf : (fetchServerInfo env proxy stamp.name stamp m.log).1 with
  | err e => rw [registerServer_of_err env proxy stamp.name stamp m e hf]; exact h
  | fatal t => rw [registerServer_of_fatal env proxy stamp.name stamp m t hf]; exact h
  | ok info =>
    have hname := fetchServerInfo_ok_name env proxy stamp.name stamp m.log info hf
    have hv := ((fetchServerInfo_ok_iff env proxy stamp.name stamp m.log info).1 hf).1
    rw [registerServer_of_ok env proxy stamp.name stamp m info hf]
    cases hr : replaceByName info m.reg.inner with
    | some l2 =>
      refine ⟨?_, h.2.1, h.2.2⟩
      simp only
      rw [replaceByName_names info m.reg.inner l2 hr]
      exact h.1
    | none =>
      have hfresh := (replaceByName_eq_none info m.reg.inner).1 hr
      refine ⟨?_, ?_, ?_⟩
      · simp [h.1, hname]
      · simp only [List.map_append, List.map_cons, List.map_nil]
        rw [List.nodup_append]
        refine ⟨h.2.1, List.nodup_singleton _, ?_⟩
        intro n hn hn2
        simp only [List.mem_singleton] at hn2
        subst hn2
        rw [← h.1] at hn
        obtain ⟨x, hx, hxn⟩ := List.mem_map.1 hn
        exact hfresh x hx (hxn.trans hname.symm)
      · intro st hst
        simp only [List.mem_append, List.mem_singleton] at hst
        rcases hst with hst | rfl
        · exact h.2.2 st hst
        · exact hv

/-- One pass of `refresh` over an aligned registry: the pass runs to its end,
reaches every stamp of the snapshot, calls the Negotiator for each, keeps the
stamp collection and the entry names, and leaves in each slot what `installed`
says for the outcome of that stamp's `fetchServerInfo`. -/
theorem refresh_aligned (env : Env) (proxy : Proxy) (m : Machine) (h : Aligned m.reg) :
    (refresh env proxy m).1 = Res.ok () ∧
    (refresh env proxy m).2.reg.serverStamps = m.reg.serverStamps ∧
    (refresh env proxy m).2.reg.inner.map (fun x => x.Name) =
      m.reg.inner.map (fun x => x.Name) ∧
    (refreshStates env proxy m.reg.serverStamps (refreshStart m)).length =
      m.reg.serverStamps.length ∧
    (∀ (i : Nat) (st : ServerStamp) (pre : Machine) (old : ServerInfo),
      m.reg.serverStamps[i]? = some st →
      (refreshStates env proxy m.reg.serverStamps (refreshStart m))[i]? = some pre →
      m.reg.inner[i]? = some old →
      (refresh env proxy m).2.reg.inner[i]? =
        some (installed old (fetchServerInfo env proxy st.name st pre.log).1)) ∧
    (∀ (i : Nat) (st : ServerStamp) (pre : Machine),
      m.reg.serverStamps[i]? = some st →
      (refreshStates env proxy m.reg.serverStamps (refreshStart m))[i]? = some pre →
      Event.fetchCurrentCert proxy (decodedPk st) st.serverAddrStr st.providerName
        (negotiate env proxy st pre.log) ∈ (refresh env proxy m).2.log) := by
  have hloop : refresh env proxy m =
      refreshLoop env proxy m.reg.serverStamps (refreshStart m) := rfl
  obtain ⟨h1, h2, h3, h4, h5, _, h7⟩ := refreshLoop_present env proxy m.reg.serverStamps
    (refreshStart m) (aligned_names_nodup m.reg h) h.2.1 h.2.2 (aligned_has_entry m.reg h)
  rw [hloop]
  refine ⟨h1, h2, h3, h4, ?_, h7⟩
  intro i st pre old hst hpre hold
  obtain ⟨x, hx, hxn⟩ := aligned_at_stamp m.reg h i st hst
  rw [hold] at hx
  rw [← Option.some.inj hx] at hxn
  exact h5 i st pre hst hpre i old hold hxn

theorem refresh_own_aligned (env : Env) (proxy : Proxy) (m : Machine) (h : Aligned m.reg) :
    Aligned (refresh env proxy m).2.reg := by
  obtain ⟨_, h2, h3, _⟩ := refresh_aligned env proxy m h
  refine ⟨?_, ?_, ?_⟩
  · rw [h3, h2]; exact h.1
  · rw [h2]; exact h.2.1
  · rw [h2]; exact h.2.2

theorem reachableOwn_aligned (env : Env) (m : Machine) (h : ReachableOwn env m) :
    Aligned m.reg := by
  induction h with
  | start => exact aligned_empty
  | register m proxy stamp _ _ ih => exact registerServer_own_aligned env proxy stamp m ih
  | refresh m proxy _ _ ih => exact refresh_own_aligned env proxy m ih

/-! ## Registries built from distinctly named stamps -/

theorem registerServer_stamps_subset (env : Env) (proxy : Proxy) (name : String)
    (stamp : ServerStamp) (m : Machine) :
    ∀ st ∈ (registerServer env proxy name stamp m).2.reg.serverStamps,
      st ∈ m.reg.serverStamps ∨ st = stamp := by
  intro st hst
  cases hf : (fetchServerInfo env proxy name stamp m.log).1 with
  | err e =>
    rw [registerServer_of_err env proxy name stamp m e hf] at hst
    exact Or.inl hst
  | fatal t =>
    rw [registerServer_of_fatal env proxy name stamp m t hf] at hst
    exact Or.inl hst
  | ok info =>
    rw [registerServer_of_ok env proxy name stamp m info hf] at hst
    cases hr : replaceByName info m.reg.inner with
    | some l2 =>
      rw [hr] at hst
      exact Or.inl hst
    | none =>
      rw [hr] at hst
      simp only [List.mem_append, List.mem_singleton] at hst
      exact hst

theorem builtFrom_invariant (env : Env) (stamps : List ServerStamp) (m : Machine)
    (h : BuiltFrom env stamps m) :
    Aligned m.reg ∧ Resolved env m.reg ∧ (∀ st ∈ m.reg.serverStamps, st ∈ stamps) := by
  induction h with
  | start =>
    refine ⟨aligned_empty, ?_, ?_⟩
    · intro p hp
      simp [emptyMachine] at hp
    · intro st hst
      simp [emptyMachine] at hst
  | register stamps m proxy stamp _ hnew _ ih =>
    obtain ⟨ha, hr, hs⟩ := ih
    refine ⟨registerServer_own_aligned env proxy stamp m ha, ?_, ?_⟩
    · cases hf : (fetchServerInfo env proxy stamp.name stamp m.log).1 with
      | err e => rw [registerServer_of_err env proxy stamp.name stamp m e hf]; exact hr
      | fatal t => rw [registerServer_of_fatal env proxy stamp.name stamp m t hf]; exact hr
      | ok info =>
        have hname := fetchServerInfo_ok_name env proxy stamp.name stamp m.log info hf
        obtain ⟨_, c, u, t, _, hu, ht, hinfo⟩ :=
          (fetchServerInfo_ok_iff env proxy stamp.name stamp m.log info).1 hf
        have hnone : replaceByName info m.reg.inner = none := by
          rw [replaceByName_eq_none]
          intro x hx hxn
          have h1 : x.Name ∈ m.reg.inner.map (fun x => x.Name) := List.mem_map.2 ⟨x, hx, rfl⟩
          rw [ha.1] at h1
          obtain ⟨st, hst, hstn⟩ := List.mem_map.1 h1
          apply hnew
          refine List.mem_map.2 ⟨st, hs st hst, ?_⟩
          exact hstn.trans (hxn.trans hname)
        rw [registerServer_of_ok env proxy stamp.name stamp m info hf, hnone]
        intro p hp
        simp only at hp
        rw [List.zip_append (aligned_length m.reg ha)] at hp
        rcases List.mem_append.1 hp with hp | hp
        · exact hr p hp
        · simp only [List.zip_cons_cons, List.zip_nil_right, List.mem_singleton] at hp
          subst hp
          rw [hinfo]
          exact ⟨⟨_, hu⟩, ⟨_, ht⟩⟩
    · intro st hst
      rcases registerServer_stamps_subset env proxy stamp.name stamp m st hst with h1 | h1
      · exact List.mem_append_left _ (hs st h1)
      · rw [h1]
        simp

theorem builtFrom_buildAB (env : Env)
    (h1 : (registerServer env sampleProxy "a" stampA emptyMachine).1 = Res.ok ())
    (h2 : (registerServer env sampleProxy "b" stampB
      (registerServer env sampleProxy "a" stampA emptyMachine).2).1 = Res.ok ()) :
    BuiltFrom env [stampA, stampB] (buildAB env) :=
  BuiltFrom.register [stampA] _ sampleProxy stampB
    (BuiltFrom.register [] _ sampleProxy stampA BuiltFrom.start (by decide)
      (not_fatal_of_ok _ h1))
    (by decide) (not_fatal_of_ok _ h2)

/-! ## A pass of `refresh` with one failing server -/

theorem getElem?_some_lt {α : Type} (l : List α) (i : Nat) (a : α) (h : l[i]? = some a) :
    i < l.length := by
  by_contra hc
  rw [List.getElem?_eq_none (by omega)] at h
  exact Option.noConfusion h

theorem refreshStates_at (env : Env) (proxy : Proxy) (m : Machine) (h : Aligned m.reg)
    (i : Nat) (st : ServerStamp) (hst : m.reg.serverStamps[i]? = some st) :
    ∃ pre, (refreshStates env proxy m.reg.serverStamps (refreshStart m))[i]? = some pre := by
  have hlt := getElem?_some_lt _ i st hst
  rw [← (refresh_aligned env proxy m h).2.2.2.1] at hlt
  exact ⟨_, List.getElem?_eq_getElem hlt⟩

/-- C7, as amended. For every registry built from the empty registry by
registering pairwise distinctly named stamps, each once under its own name: a
pass of `refresh` in which the Negotiator fails for the stamp at index `j`,
and the Negotiator and both resolvers succeed for every other stamp, runs to
its end and reaches every stamp of the snapshot, calling the Negotiator for
each; it leaves the entry of the failing server as it was, still returned by
`getOne` when its index is drawn; it replaces the entry of every other server
by the `ServerInfo` assembled for it in the pass; and it leaves the entry count
and the stamp collection unchanged. -/
theorem refresh_one_negotiation_failure (env : Env) (stamps : List ServerStamp) (m : Machine)
    (hbuilt : BuiltFrom env stamps m) (proxy : Proxy) (j : Nat) (stj : ServerStamp)
    (e : GoError) (hj : m.reg.serverStamps[j]? = some stj)
    (hfail : ∀ pre : Machine,
      (refreshStates env proxy m.reg.serverStamps (refreshStart m))[j]? = some pre →
      negotiate env proxy stj pre.log = Reply.error e)
    (hothers : ∀ (i : Nat) (st : ServerStamp) (pre : Machine), i ≠ j →
      m.reg.serverStamps[i]? = some st →
      (refreshStates env proxy m.reg.serverStamps (refreshStart m))[i]? = some pre →
      ∃ c u t, negotiate env proxy st pre.log = Reply.ok c ∧
        resolveUDP env proxy st pre.log = Reply.ok u ∧
        resolveTCP env proxy st pre.log = Reply.ok t) :
    (refresh env proxy m).1 = Res.ok () ∧
    (refreshStates env proxy m.reg.serverStamps (refreshStart m)).length =
      m.reg.serverStamps.length ∧
    (∀ (i : Nat) (st : ServerStamp), m.reg.serverStamps[i]? = some st →
      ∃ pre, (refreshStates env proxy m.reg.serverStamps (refreshStart m))[i]? = some pre ∧
        Event.fetchCurrentCert proxy (decodedPk st) st.serverAddrStr st.providerName
          (negotiate env proxy st pre.log) ∈ (refresh env proxy m).2.log) ∧
    (refresh env proxy m).2.reg.inner.length = m.reg.inner.length ∧
    (refresh env proxy m).2.reg.serverStamps = m.reg.serverStamps ∧
    (∃ old, m.reg.inner[j]? = some old ∧ old.Name = stj.name ∧
      (refresh env proxy m).2.reg.inner[j]? = some old ∧
      ∀ intn : Nat → Nat, intn (refresh env proxy m).2.reg.inner.length = j →
        (getOne intn (refresh env proxy m).2).1 = Selected.ref j old) ∧
    (∀ (i : Nat) (st : ServerStamp) (pre : Machine), i ≠ j →
      m.reg.serverStamps[i]? = some st →
      (refreshStates env proxy m.reg.serverStamps (refreshStart m))[i]? = some pre →
      ∃ c u t, negotiate env proxy st pre.log = Reply.ok c ∧
        resolveUDP env proxy st pre.log = Reply.ok u ∧
        resolveTCP env proxy st pre.log = Reply.ok t ∧
        (refresh env proxy m).2.reg.inner[i]? = some (assemble env st.name c u t)) := by
  obtain ⟨ha, _, _⟩ := builtFrom_invariant env stamps m hbuilt
  obtain ⟨r1, r2, r3, r4, r5, r6⟩ := refresh_aligned env proxy m ha
  have hlen : (refresh env proxy m).2.reg.inner.length = m.reg.inner.length := by
    have := congrArg List.length r3
    simpa using this
  refine ⟨r1, r4, ?_, hlen, r2, ?_, ?_⟩
  · intro i st hst
    obtain ⟨pre, hpre⟩ := refreshStates_at env proxy m ha i st hst
    exact ⟨pre, hpre, r6 i st pre hst hpre⟩
  · obtain ⟨old, hold, holdn⟩ := aligned_at_stamp m.reg ha j stj hj
    obtain ⟨pre, hpre⟩ := refreshStates_at env proxy m ha j stj hj
    have hv : ValidPk stj := ha.2.2 stj (List.getElem?_mem hj)
    have hf : (fetchServerInfo env proxy stj.name stj pre.log).1 = Res.err e := by
      rw [fetchServerInfo_valid env proxy stj.name stj pre.log hv, hfail pre hpre]
    have hnew := r5 j stj pre old hj hpre hold
    rw [hf] at hnew
    simp only [installed] at hnew
    refine ⟨old, hold, holdn, hnew, ?_⟩
    intro intn hintn
    have hlt : intn (refresh env proxy m).2.reg.inner.length <
        (refresh env proxy m).2.reg.inner.length := by
      rw [hintn]
      exact getElem?_some_lt _ j old hnew
    obtain ⟨v, hv1, hv2⟩ := getOne_of_lt intn (refresh env proxy m).2 hlt
    rw [hintn] at hv1
    rw [hnew] at hv1
    rw [hv2, hintn, ← Option.some.inj hv1]
  · intro i st pre hne hst hpre
    obtain ⟨c, u, t, hc, hu, ht⟩ := hothers i st pre hne hst hpre
    obtain ⟨old, hold, _⟩ := aligned_at_stamp m.reg ha i st hst
    have hv : ValidPk st := ha.2.2 st (List.getElem?_mem hst)
    have hf : (fetchServerInfo env proxy st.name st pre.log).1 =
        Res.ok (assemble env st.name c u t) := by
      rw [fetchServerInfo_valid env proxy st.name st pre.log hv, hc, hu, ht]
    have hnew := r5 i st pre old hst hpre hold
    rw [hf] at hnew
    exact ⟨c, u, t, hc, hu, ht, hnew⟩

/-- C7 as stated fails. The registry `buildAB flakyEnv` is built by registering
`stampA` and `stampB`. In the pass of `refresh` that follows, the Negotiator
fails for `stampA` and succeeds for `stampB`, with the shared key `[8]`; UDP
resolution then fails for `stampB`, so `fetchServerInfo` returns an error and
the entry of `b` is the one from before the pass, with the shared key `[3]`:
it is not replaced by a newly assembled `ServerInfo`. -/
theorem refresh_negotiator_ok_entry_kept :
    BuiltFrom flakyEnv [stampA, stampB] (buildAB flakyEnv) ∧
    (buildAB flakyEnv).reg.serverStamps = [stampA, stampB] ∧
    refreshStates flakyEnv sampleProxy (buildAB flakyEnv).reg.serverStamps
      (refreshStart (buildAB flakyEnv)) =
        [refreshStart (buildAB flakyEnv), secondIteration flakyEnv] ∧
    negotiate flakyEnv sampleProxy stampA (refreshStart (buildAB flakyEnv)).log =
      Reply.error "no certificate" ∧
    negotiate flakyEnv sampleProxy stampB (secondIteration flakyEnv).log =
      Reply.ok { MagicQuery := [113, 55], ServerPk := decodedPk stampB, SharedKey := [8],
                 CryptoConstruction := 1 } ∧
    (fetchServerInfo flakyEnv sampleProxy "b" stampB (secondIteration flakyEnv).log).1 =
      Res.err "no such host" ∧
    (refresh flakyEnv sampleProxy (buildAB flakyEnv)).1 = Res.ok () ∧
    (refresh flakyEnv sampleProxy (buildAB flakyEnv)).2.reg.inner[1]? =
      (buildAB flakyEnv).reg.inner[1]? ∧
    ((refresh flakyEnv sampleProxy (buildAB flakyEnv)).2.reg.inner[1]?).map
      (fun x => (x.Name, x.SharedKey)) = some ("b", [3]) :=
  ⟨builtFrom_buildAB flakyEnv (by decide) (by decide), by decide, by decide, by decide,
    by decide, by decide, by decide, by decide, by decide⟩

theorem refresh_one_negotiation_failure_witness :
    BuiltFrom staleEnv [stampA, stampB] (buildAB staleEnv) ∧
    (buildAB staleEnv).reg.serverStamps[0]? = some stampA ∧
    (refresh staleEnv sampleProxy (buildAB staleEnv)).1 = Res.ok () ∧
    (refresh staleEnv sampleProxy (buildAB staleEnv)).2.reg.inner.length =
      (buildAB staleEnv).reg.inner.length ∧
    (∃ old, (buildAB staleEnv).reg.inner[0]? = some old ∧ old.Name = stampA.name ∧
      (refresh staleEnv sampleProxy (buildAB staleEnv)).2.reg.inner[0]? = some old ∧
      ∀ intn : Nat → Nat,
        intn (refresh staleEnv sampleProxy (buildAB staleEnv)).2.reg.inner.length = 0 →
        (getOne intn (refresh staleEnv sampleProxy (buildAB staleEnv)).2).1 =
          Selected.ref 0 old) := by
  have hbuilt := builtFrom_buildAB staleEnv (by decide) (by decide)
  have hstates : refreshStates staleEnv sampleProxy (buildAB staleEnv).reg.serverStamps
      (refreshStart (buildAB staleEnv)) =
        [refreshStart (buildAB staleEnv), secondIteration staleEnv] := by decide
  have hstamps : (buildAB staleEnv).reg.serverStamps = [stampA, stampB] := by decide
  have h := refresh_one_negotiation_failure staleEnv [stampA, stampB] (buildAB staleEnv)
    hbuilt sampleProxy 0 stampA "no certificate" (by decide)
    (by
      intro pre hpre
      rw [hstates] at hpre
      simp only [List.getElem?_cons_zero, Option.some.injEq] at hpre
      subst hpre
      decide)
    (by
      intro i st pre hne hst hpre
      rw [hstates] at hpre
      rw [hstamps] at hst
      match i, hne, hst, hpre with
      | 1, _, hst, hpre =>
        simp only [List.getElem?_cons_succ, List.getElem?_cons_zero, Option.some.injEq]
          at hst hpre
        subst hst hpre
        exact ⟨{ MagicQuery := [113, 55], ServerPk := decodedPk stampB, SharedKey := [8],
                 CryptoConstruction := 1 }, sampleUDP stampB.serverAddrStr,
          sampleTCP stampB.serverAddrStr, by decide, by decide, by decide⟩
      | i + 2, _, hst, _ =>
        simp at hst)
  exact ⟨hbuilt, by decide, h.1, h.2.2.2.1, h.2.2.2.2.2.1⟩

/-! ## A pass of `refresh` after a certificate rotation -/

/-- C8. In a registry built by registering pairwise distinctly named stamps,
each once under its own name, take the server at index `i`. When, in the pass
of `refresh` that follows, the Negotiator succeeds for its stamp with a shared
key other than the stored one, and the resolvers give the same answer for the
same address whenever they are asked, the pass leaves at index `i` an entry
with the cert fields of that negotiation, the same `Name` and the same UDP and
TCP endpoints as before; the entry count and the stamp collection are
unchanged. -/
theorem refresh_new_shared_key (env : Env) (stamps : List ServerStamp) (m : Machine)
    (hbuilt : BuiltFrom env stamps m) (proxy : Proxy) (i : Nat) (st : ServerStamp)
    (old : ServerInfo) (pre : Machine) (certInfo : CertInfo)
    (hudp : ∀ (l1 l2 : List Event) (network address : String),
      env.ResolveUDPAddr l1 network address = env.ResolveUDPAddr l2 network address)
    (htcp : ∀ (l1 l2 : List Event) (network address : String),
      env.ResolveTCPAddr l1 network address = env.ResolveTCPAddr l2 network address)
    (hst : m.reg.serverStamps[i]? = some st) (hold : m.reg.inner[i]? = some old)
    (hpre : (refreshStates env proxy m.reg.serverStamps (refreshStart m))[i]? = some pre)
    (hneg : negotiate env proxy st pre.log = Reply.ok certInfo)
    (hkey : certInfo.SharedKey ≠ old.SharedKey) :
    ∃ new, (refresh env proxy m).2.reg.inner[i]? = some new ∧
      new.SharedKey = certInfo.SharedKey ∧ new.SharedKey ≠ old.SharedKey ∧
      new.MagicQuery = certInfo.MagicQuery ∧ new.ServerPk = certInfo.ServerPk ∧
      new.CryptoConstruction = certInfo.CryptoConstruction ∧
      new.Name = old.Name ∧ new.Name = st.name ∧
      new.UDPAddr = old.UDPAddr ∧ new.TCPAddr = old.TCPAddr ∧
      (refresh env proxy m).2.reg.inner.length = m.reg.inner.length ∧
      (refresh env proxy m).2.reg.serverStamps = m.reg.serverStamps := by
  obtain ⟨ha, hr, _⟩ := builtFrom_invariant env stamps m hbuilt
  obtain ⟨_, r2, r3, _, r5, _⟩ := refresh_aligned env proxy m ha
  have hlen : (refresh env proxy m).2.reg.inner.length = m.reg.inner.length := by
    have := congrArg List.length r3
    simpa using this
  obtain ⟨x, hx, hxn⟩ := aligned_at_stamp m.reg ha i st hst
  rw [hold] at hx
  have hxo : old = x := Option.some.inj hx
  subst hxo
  have hzip : (old, st) ∈ List.zip m.reg.inner m.reg.serverStamps :=
    List.getElem?_mem (List.getElem?_zip_eq_some.2 ⟨hold, hst⟩)
  obtain ⟨⟨l1, h1⟩, ⟨l2, h2⟩⟩ := hr (old, st) hzip
  have hu : resolveUDP env proxy st pre.log = Reply.ok old.UDPAddr := by
    unfold resolveUDP
    rw [hudp _ l1]
    exact h1
  have ht : resolveTCP env proxy st pre.log = Reply.ok old.TCPAddr := by
    unfold resolveTCP
    rw [htcp _ l2]
    exact h2
  have hv : ValidPk st := ha.2.2 st (List.getElem?_mem hst)
  have hf : (fetchServerInfo env proxy st.name st pre.log).1 =
      Res.ok (assemble env st.name certInfo old.UDPAddr old.TCPAddr) := by
    rw [fetchServerInfo_valid env proxy st.name st pre.log hv, hneg, hu, ht]
  have hnew := r5 i st pre old hst hpre hold
  rw [hf] at hnew
  exact ⟨_, hnew, rfl, hkey, rfl, rfl, rfl, hxn.symm, rfl, rfl, rfl, hlen, r2⟩

theorem refresh_new_shared_key_witness :
    BuiltFrom okEnv [stampA, stampB] (buildAB okEnv) ∧
    (buildAB okEnv).reg.serverStamps[1]? = some stampB ∧
    ((buildAB okEnv).reg.inner[1]?).map (fun x => x.SharedKey) = some [3] ∧
    ∃ new, (refresh okEnv sampleProxy (buildAB okEnv)).2.reg.inner[1]? = some new ∧
      new.SharedKey = [10] ∧ new.Name = "b" ∧
      (refresh okEnv sampleProxy (buildAB okEnv)).2.reg.inner.length =
        (buildAB okEnv).reg.inner.length := by
  have hbuilt := builtFrom_buildAB okEnv (by decide) (by decide)
  obtain ⟨new, h1, h2, _, _, _, _, _, h3, _, _, h4, _⟩ :=
    refresh_new_shared_key okEnv [stampA, stampB] (buildAB okEnv) hbuilt sampleProxy 1 stampB
      ((buildAB okEnv).reg.inner[1]) (secondIteration okEnv)
      { MagicQuery := [113, 55], ServerPk := decodedPk stampB, SharedKey := [10],
        CryptoConstruction := 1 }
      (fun _ _ _ _ => rfl) (fun _ _ _ _ => rfl) (by decide) (by decide) (by decide)
      (by decide) (by decide)
  exact ⟨hbuilt, by decide, by decide, new, h1, h2, h3, h4⟩

/-! ## What a pass of `refresh` renegotiates -/

/-- C9 as stated fails. Registering `stampA`, whose name is `a`, under the name
`x` on the empty registry gives a reachable state whose only entry is named
`x` and whose only stamp is named `a`: no stamp of the snapshot bears the name
of the entry. In the pass of `refresh` that follows every negotiation and
resolution succeeds, and the entry `x` is as it was before, while a second
entry, named `a`, is appended. -/
theorem reachable_entry_without_stamp :
    Reachable okEnv misnamed ∧
    misnamed.reg.inner.map (fun x => x.Name) = ["x"] ∧
    misnamed.reg.serverStamps.map (fun st => st.name) = ["a"] ∧
    (∃ x ∈ misnamed.reg.inner, ∀ st ∈ misnamed.reg.serverStamps, st.name ≠ x.Name) ∧
    (refresh okEnv sampleProxy misnamed).1 = Res.ok () ∧
    (registerServer okEnv sampleProxy "a" stampA (refreshStart misnamed)).1 = Res.ok () ∧
    (refresh okEnv sampleProxy misnamed).2.reg.inner[0]? = misnamed.reg.inner[0]? ∧
    (refresh okEnv sampleProxy misnamed).2.reg.inner.map (fun x => x.Name) = ["x", "a"] :=
  ⟨Reachable.register emptyMachine sampleProxy "x" stampA Reachable.start
      (not_fatal_of_ok _ (by decide)),
    by decide, by decide, by decide, by decide, by decide, by decide, by decide⟩

/-- C9, as amended. For every state reachable from the empty registry by
calls of `registerServer` that register a stamp under the stamp's own name,
and of `refresh`: every entry has, at its own index in the stamp snapshot, a
stamp bearing its name; and a pass of `refresh` in which every negotiation and
resolution succeeds runs to its end and replaces every entry by the
`ServerInfo` assembled in the pass for the stamp at that index, the entry count
staying the same. -/
theorem refresh_renegotiates_every_entry (env : Env) (m : Machine)
    (hm : ReachableOwn env m) (proxy : Proxy) :
    (∀ x ∈ m.reg.inner, ∃ st ∈ m.reg.serverStamps, st.name = x.Name) ∧
    (∀ (i : Nat) (x : ServerInfo), m.reg.inner[i]? = some x →
      ∃ st, m.reg.serverStamps[i]? = some st ∧ st.name = x.Name) ∧
    ((∀ (i : Nat) (st : ServerStamp) (pre : Machine), m.reg.serverStamps[i]? = some st →
        (refreshStates env proxy m.reg.serverStamps (refreshStart m))[i]? = some pre →
        ∃ c u t, negotiate env proxy st pre.log = Reply.ok c ∧
          resolveUDP env proxy st pre.log = Reply.ok u ∧
          resolveTCP env proxy st pre.log = Reply.ok t) →
      (refresh env proxy m).1 = Res.ok () ∧
      (refresh env proxy m).2.reg.inner.length = m.reg.inner.length ∧
      ∀ (i : Nat) (x : ServerInfo), m.reg.inner[i]? = some x →
        ∃ st pre c u t, m.reg.serverStamps[i]? = some st ∧
          (refreshStates env proxy m.reg.serverStamps (refreshStart m))[i]? = some pre ∧
          negotiate env proxy st pre.log = Reply.ok c ∧
          resolveUDP env proxy st pre.log = Reply.ok u ∧
          resolveTCP env proxy st pre.log = Reply.ok t ∧
          (refresh env proxy m).2.reg.inner[i]? = some (assemble env x.Name c u t)) := by
  have ha := reachableOwn_aligned env m hm
  obtain ⟨r1, _, r3, _, r5, _⟩ := refresh_aligned env proxy m ha
  refine ⟨?_, fun i x hx => aligned_at m.reg ha i x hx, ?_⟩
  · intro x hx
    obtain ⟨i, hi⟩ := List.mem_iff_getElem?.1 hx
    obtain ⟨st, hst, hstn⟩ := aligned_at m.reg ha i x hi
    exact ⟨st, List.getElem?_mem hst, hstn⟩
  · intro hall
    have hlen : (refresh env proxy m).2.reg.inner.length = m.reg.inner.length := by
      have := congrArg List.length r3
      simpa using this
    refine ⟨r1, hlen, ?_⟩
    intro i x hx
    obtain ⟨st, hst, hstn⟩ := aligned_at m.reg ha i x hx
    obtain ⟨pre, hpre⟩ := refreshStates_at env proxy m ha i st hst
    obtain ⟨c, u, t, hc, hu, ht⟩ := hall i st pre hst hpre
    have hv : ValidPk st := ha.2.2 st (List.getElem?_mem hst)
    have hf : (fetchServerInfo env proxy st.name st pre.log).1 =
        Res.ok (assemble env st.name c u t) := by
      rw [fetchServerInfo_valid env proxy st.name st pre.log hv, hc, hu, ht]
    have hnew := r5 i st pre x hst hpre hx
    rw [hf, hstn] at hnew
    exact ⟨st, pre, c, u, t, hst, hpre, hc, hu, ht, hnew⟩

theorem refresh_renegotiates_every_entry_witness :
    ReachableOwn okEnv sampleMachine ∧
    (∀ x ∈ sampleMachine.reg.inner,
      ∃ st ∈ sampleMachine.reg.serverStamps, st.name = x.Name) ∧
    (refresh okEnv sampleProxy sampleMachine).2.reg.inner.map
      (fun x => (x.Name, x.SharedKey)) = [("a", [4])] :=
  ⟨ReachableOwn.register emptyMachine sampleProxy stampA ReachableOwn.start
      (not_fatal_of_ok _ (by decide)),
    (refresh_renegotiates_every_entry okEnv sampleMachine
      (ReachableOwn.register emptyMachine sampleProxy stampA ReachableOwn.start
        (not_fatal_of_ok _ (by decide))) sampleProxy).1,
    by decide⟩

/-! ## The two collections only grow, and together -/

/-- What one call of `registerServer` does to the registry, whatever its
outcome: nothing, or one entry overwritten by one of the same name, or one
entry and the stamp appended. -/
theorem registerServer_frame (env : Env) (proxy : Proxy) (name : String)
    (stamp : ServerStamp) (m : Machine) :
    ((registerServer env proxy name stamp m).2.reg.inner.map (fun x => x.Name) =
        m.reg.inner.map (fun x => x.Name) ∧
      (registerServer env proxy name stamp m).2.reg.serverStamps = m.reg.serverStamps) ∨
    (∃ newServer, (fetchServerInfo env proxy name stamp m.log).1 = Res.ok newServer ∧
      (∀ x ∈ m.reg.inner, x.Name ≠ name) ∧
      (registerServer env proxy name stamp m).2.reg.inner = m.reg.inner ++ [newServer] ∧
      (registerServer env proxy name stamp m).2.reg.serverStamps =
        m.reg.serverStamps ++ [stamp]) := by
  cases hf : (fetchServerInfo env proxy name stamp m.log).1 with
  | err e =>
    rw [registerServer_of_err env proxy name stamp m e hf]
    exact Or.inl ⟨rfl, rfl⟩
  | fatal t =>
    rw [registerServer_of_fatal env proxy name stamp m t hf]
    exact Or.inl ⟨rfl, rfl⟩
  | ok info =>
    have hname := fetchServerInfo_ok_name env proxy name stamp m.log info hf
    rw [registerServer_of_ok env proxy name stamp m info hf]
    cases hr : replaceByName info m.reg.inner with
    | some l2 =>
      exact Or.inl ⟨replaceByName_names info m.reg.inner l2 hr, rfl⟩
    | none =>
      refine Or.inr ⟨info, rfl, ?_, rfl, rfl⟩
      intro x hx
      rw [← hname]
      exact (replaceByName_eq_none info m.reg.inner).1 hr x hx

theorem registerServer_grows (env : Env) (proxy : Proxy) (name : String)
    (stamp : ServerStamp) (m : Machine) :
    (∃ t, (registerServer env proxy name stamp m).2.reg.inner.map (fun x => x.Name) =
      m.reg.inner.map (fun x => x.Name) ++ t) ∧
    (∃ t, (registerServer env proxy name stamp m).2.reg.serverStamps =
      m.reg.serverStamps ++ t) := by
  rcases registerServer_frame env proxy name stamp m with ⟨h1, h2⟩ | ⟨info, _, _, h1, h2⟩
  · exact ⟨⟨[], by rw [h1, List.append_nil]⟩, ⟨[], by rw [h2, List.append_nil]⟩⟩
  · exact ⟨⟨[info.Name], by rw [h1]; simp⟩, ⟨[stamp], h2⟩⟩

theorem registerServer_lengths (env : Env) (proxy : Proxy) (name : String)
    (stamp : ServerStamp) (m : Machine)
    (h : m.reg.inner.length = m.reg.serverStamps.length) :
    (registerServer env proxy name stamp m).2.reg.inner.length =
      (registerServer env proxy name stamp m).2.reg.serverStamps.length := by
  rcases registerServer_frame env proxy name stamp m with ⟨h1, h2⟩ | ⟨info, _, _, h1, h2⟩
  · have := congrArg List.length h1
    simp only [List.length_map] at this
    rw [this, h2, h]
  · rw [h1, h2]
    simp [h]

theorem refreshLoop_grows (env : Env) (proxy : Proxy) (stamps : List ServerStamp)
    (m : Machine) :
    (∃ t, (refreshLoop env proxy stamps m).2.reg.inner.map (fun x => x.Name) =
      m.reg.inner.map (fun x => x.Name) ++ t) ∧
    (∃ t, (refreshLoop env proxy stamps m).2.reg.serverStamps = m.reg.serverStamps ++ t) := by
  induction stamps generalizing m with
  | nil => exact ⟨⟨[], by simp [refreshLoop]⟩, ⟨[], by simp [refreshLoop]⟩⟩
  | cons st rest ih =>
    obtain ⟨⟨t1, h1⟩, ⟨t2, h2⟩⟩ := registerServer_grows env proxy st.name st m
    unfold refreshLoop
    split
    · rename_i text m1 heq
      rw [heq] at h1 h2
      exact ⟨⟨t1, h1⟩, ⟨t2, h2⟩⟩
    · rename_i r m1 _ heq
      rw [heq] at h1 h2
      obtain ⟨⟨u1, g1⟩, ⟨u2, g2⟩⟩ := ih m1
      exact ⟨⟨t1 ++ u1, by rw [g1, h1, List.append_assoc]⟩,
        ⟨t2 ++ u2, by rw [g2, h2, List.append_assoc]⟩⟩

theorem refreshLoop_lengths (env : Env) (proxy : Proxy) (stamps : List ServerStamp)
    (m : Machine) (h : m.reg.inner.length = m.reg.serverStamps.length) :
    (refreshLoop env proxy stamps m).2.reg.inner.length =
      (refreshLoop env proxy stamps m).2.reg.serverStamps.length := by
  induction stamps generalizing m with
  | nil => exact h
  | cons st rest ih =>
    have h1 := registerServer_lengths env proxy st.name st m h
    unfold refreshLoop
    split
    · rename_i text m1 heq
      rw [heq] at h1
      exact h1
    · rename_i r m1 _ heq
      rw [heq] at h1
      exact ih m1 h1

theorem reachable_lengths (env : Env) (m : Machine) (h : Reachable env m) :
    m.reg.inner.length = m.reg.serverStamps.length := by
  induction h with
  | start => rfl
  | register m proxy name stamp _ _ ih => exact registerServer_lengths env proxy name stamp m ih
  | refresh m proxy _ _ ih => exact refreshLoop_lengths env proxy _ (refreshStart m) ih

/-- C11. When `registerServer` succeeds for a name that has no entry, the new
`ServerInfo` is appended to the entry collection and the stamp of the call to
the stamp collection, every element already there staying as it was. Hence in
every state reachable from the empty registry by `registerServer` and
`refresh` calls the two collections have the same length, so that the two
appended elements sit at the same index; and the lengths are still equal after
one more call of either operation, whatever its outcome. -/
theorem registerServer_new_name_appends (env : Env) :
    (∀ (proxy : Proxy) (name : String) (stamp : ServerStamp) (m : Machine),
      (registerServer env proxy name stamp m).1 = Res.ok () →
      (∀ x ∈ m.reg.inner, x.Name ≠ name) →
      ∃ newServer, (fetchServerInfo env proxy name stamp m.log).1 = Res.ok newServer ∧
        (registerServer env proxy name stamp m).2.reg.inner = m.reg.inner ++ [newServer] ∧
        (registerServer env proxy name stamp m).2.reg.serverStamps =
          m.reg.serverStamps ++ [stamp] ∧
        (m.reg.inner.length = m.reg.serverStamps.length →
          (registerServer env proxy name stamp m).2.reg.inner[m.reg.inner.length]? =
            some newServer ∧
          (registerServer env proxy name stamp m).2.reg.serverStamps[m.reg.inner.length]? =
            some stamp)) ∧
    (∀ m : Machine, Reachable env m →
      m.reg.inner.length = m.reg.serverStamps.length ∧
      (∀ (proxy : Proxy) (name : String) (stamp : ServerStamp),
        (registerServer env proxy name stamp m).2.reg.inner.length =
          (registerServer env proxy name stamp m).2.reg.serverStamps.length) ∧
      (∀ proxy : Proxy,
        (refresh env proxy m).2.reg.inner.length =
          (refresh env proxy m).2.reg.serverStamps.length)) := by
  constructor
  · intro proxy name stamp m hok hnew
    obtain ⟨info, hf⟩ := (registerServer_ok_iff env proxy name stamp m).1 hok
    have hname := fetchServerInfo_ok_name env proxy name stamp m.log info hf
    have hnone : replaceByName info m.reg.inner = none := by
      rw [replaceByName_eq_none, hname]
      exact hnew
    have hreg := registerServer_of_ok env proxy name stamp m info hf
    rw [hnone] at hreg
    refine ⟨info, hf, by rw [hreg], by rw [hreg], ?_⟩
    intro hlen
    rw [hreg]
    constructor
    · simp
    · simp only
      rw [hlen]
      simp
  · intro m hm
    have hlen := reachable_lengths env m hm
    exact ⟨hlen, fun proxy name stamp => registerServer_lengths env proxy name stamp m hlen,
      fun proxy => refreshLoop_lengths env proxy _ (refreshStart m) hlen⟩

theorem registerServer_new_name_appends_witness :
    (registerServer okEnv sampleProxy "b" stampB sampleMachine).1 = Res.ok () ∧
    (∀ x ∈ sampleMachine.reg.inner, x.Name ≠ "b") ∧
    Reachable okEnv sampleMachine ∧
    (∃ newServer,
      (registerServer okEnv sampleProxy "b" stampB sampleMachine).2.reg.inner =
        sampleMachine.reg.inner ++ [newServer] ∧
      (registerServer okEnv sampleProxy "b" stampB sampleMachine).2.reg.serverStamps =
        sampleMachine.reg.serverStamps ++ [stampB]) ∧
    sampleMachine.reg.inner.length = sampleMachine.reg.serverStamps.length := by
  have h := registerServer_new_name_appends okEnv
  obtain ⟨info, _, h1, h2, _⟩ := h.1 sampleProxy "b" stampB sampleMachine (by decide) (by decide)
  exact ⟨by decide, by decide, reachable_sampleMachine, ⟨info, h1, h2⟩,
    (h.2 sampleMachine reachable_sampleMachine).1⟩

/-- C12. No entry is deleted or reordered. For every registry state and every
operation, whatever its outcome, the list of entry names before the call is an
initial segment of the list after it, and so is the stamp collection:
`registerServer` and `refresh` only append, and `getOne` changes nothing. -/
theorem operations_only_append (env : Env) (proxy : Proxy) (m : Machine) :
    (∀ (name : String) (stamp : ServerStamp),
      (∃ t, (registerServer env proxy name stamp m).2.reg.inner.map (fun x => x.Name) =
        m.reg.inner.map (fun x => x.Name) ++ t) ∧
      (∃ t, (registerServer env proxy name stamp m).2.reg.serverStamps =
        m.reg.serverStamps ++ t)) ∧
    ((∃ t, (refresh env proxy m).2.reg.inner.map (fun x => x.Name) =
        m.reg.inner.map (fun x => x.Name) ++ t) ∧
      (∃ t, (refresh env proxy m).2.reg.serverStamps = m.reg.serverStamps ++ t)) ∧
    (∀ intn : Nat → Nat, (getOne intn m).2 = m) := by
  refine ⟨fun name stamp => registerServer_grows env proxy name stamp m,
    refreshLoop_grows env proxy _ (refreshStart m), ?_⟩
  intro intn
  unfold getOne
  split
  · rfl
  · split <;> rfl

/-! ## What a successful registration installs -/

/-- C13. For every successful registration, the `ServerInfo` that is installed
has `MagicQuery`, `ServerPk`, `SharedKey` and `CryptoConstruction` equal to
those of the `CertInfo` the Negotiator returned, `Name` equal to the name given
to `registerServer`, `Timeout` equal to `TimeoutMin`, and `UDPAddr` and
`TCPAddr` equal to what resolving the address of the stamp as UDP and as TCP
returned; and it is an entry of the registry after the call. -/
theorem registerServer_installs_assembled (env : Env) (proxy : Proxy) (name : String)
    (stamp : ServerStamp) (m : Machine)
    (hok : (registerServer env proxy name stamp m).1 = Res.ok ()) :
    ∃ certInfo remoteUDPAddr remoteTCPAddr info,
      env.FetchCurrentCert m.log proxy (decodedPk stamp) stamp.serverAddrStr
        stamp.providerName = Reply.ok certInfo ∧
      env.ResolveUDPAddr (logAfterCert env proxy stamp m.log) "udp" stamp.serverAddrStr =
        Reply.ok remoteUDPAddr ∧
      env.ResolveTCPAddr (logAfterUDP env proxy stamp m.log) "tcp" stamp.serverAddrStr =
        Reply.ok remoteTCPAddr ∧
      (fetchServerInfo env proxy name stamp m.log).1 = Res.ok info ∧
      info ∈ (registerServer env proxy name stamp m).2.reg.inner ∧
      info.MagicQuery = certInfo.MagicQuery ∧
      info.ServerPk = certInfo.ServerPk ∧
      info.SharedKey = certInfo.SharedKey ∧
      info.CryptoConstruction = certInfo.CryptoConstruction ∧
      info.Name = name ∧
      info.Timeout = env.TimeoutMin ∧
      info.UDPAddr = remoteUDPAddr ∧
      info.TCPAddr = remoteTCPAddr := by
  obtain ⟨info, hf⟩ := (registerServer_ok_iff env proxy name stamp m).1 hok
  obtain ⟨_, c, u, t, hc, hu, ht, hinfo⟩ :=
    (fetchServerInfo_ok_iff env proxy name stamp m.log info).1 hf
  refine ⟨c, u, t, info, hc, hu, ht, hf, ?_, ?_, ?_, ?_, ?_, ?_, ?_, ?_, ?_⟩
  · rw [registerServer_of_ok env proxy name stamp m info hf]
    cases hr : replaceByName info m.reg.inner with
    | some l2 =>
      obtain ⟨pre, old, post, _, _, _, h4⟩ := replaceByName_eq_some info m.reg.inner l2 hr
      simp [h4]
    | none => simp
  all_goals rw [hinfo]; rfl

theorem registerServer_installs_assembled_witness :
    (registerServer okEnv sampleProxy "a" stampA2 sampleMachine).1 = Res.ok () ∧
    ∃ info, info ∈ (registerServer okEnv sampleProxy "a" stampA2 sampleMachine).2.reg.inner ∧
      info.Name = "a" ∧ info.Timeout = okEnv.TimeoutMin ∧
      info.SharedKey = [sampleMachine.log.length] ∧
      info.UDPAddr = sampleUDP stampA2.serverAddrStr := by
  obtain ⟨c, u, t, info, hc, hu, _, _, hmem, _, _, hkey, _, hname, htime, hudp, _⟩ :=
    registerServer_installs_assembled okEnv sampleProxy "a" stampA2 sampleMachine (by decide)
  refine ⟨by decide, info, hmem, hname, htime, ?_, ?_⟩
  · rw [hkey]
    have : c = { MagicQuery := [113, 55], ServerPk := decodedPk stampA2,
                 SharedKey := [sampleMachine.log.length], CryptoConstruction := 1 } :=
      Reply.ok.inj (hc.symm.trans rfl)
    rw [this]
  · rw [hudp]
    exact Reply.ok.inj (hu.symm.trans rfl)

/-! ## The legacy stamp constructor -/

/-- C15. For all four strings, `NewServerStampFromLegacy` returns no error and
the stamp whose name, address, public-key text and provider name are the four
arguments in that order; nothing is checked, so an empty string and a key text
that is no hexadecimal text are taken as they are. -/
theorem newServerStampFromLegacy_assigns (name serverAddrStr serverPkStr providerName : String) :
    (NewServerStampFromLegacy name serverAddrStr serverPkStr providerName).2 = none ∧
    (NewServerStampFromLegacy name serverAddrStr serverPkStr providerName).1.name = name ∧
    (NewServerStampFromLegacy name serverAddrStr serverPkStr providerName).1.serverAddrStr =
      serverAddrStr ∧
    (NewServerStampFromLegacy name serverAddrStr serverPkStr providerName).1.serverPkStr =
      serverPkStr ∧
    (NewServerStampFromLegacy name serverAddrStr serverPkStr providerName).1.providerName =
      providerName ∧
    (NewServerStampFromLegacy "" "" "not hex" "").2 = none ∧
    (NewServerStampFromLegacy "" "" "not hex" "").1 =
      { name := "", serverAddrStr := "", serverPkStr := "not hex", providerName := "" } ∧
    ¬ ValidPk (NewServerStampFromLegacy "" "" "not hex" "").1 :=
  ⟨rfl, rfl, rfl, rfl, rfl, rfl, rfl, by decide⟩

/-! ## Selection on the empty registry -/

/-- C16. The index of `getOne` is within bounds exactly when the registry is
not empty. With at least one entry, and a random source that keeps the contract
of `rand.Intn`, `getOne` returns an entry of the registry at an index below the
entry count. On the empty registry `getOne` returns nothing, whatever the
random source: `rand.Intn` is called with the bound 0 and fails. -/
theorem getOne_in_bounds_iff_nonempty (m : Machine) (intn : Nat → Nat)
    (hintn : ∀ n, 0 < n → intn n < n) :
    (1 ≤ m.reg.inner.length →
      ∃ i v, (getOne intn m).1 = Selected.ref i v ∧ i < m.reg.inner.length ∧
        m.reg.inner[i]? = some v) ∧
    (m.reg.inner.length = 0 →
      (getOne intn m).1 = Selected.crashed "invalid argument to Intn") ∧
    ((∃ i v, (getOne intn m).1 = Selected.ref i v) ↔ 1 ≤ m.reg.inner.length) := by
  have h1 : 1 ≤ m.reg.inner.length →
      ∃ i v, (getOne intn m).1 = Selected.ref i v ∧ i < m.reg.inner.length ∧
        m.reg.inner[i]? = some v := by
    intro hK
    have hlt := hintn m.reg.inner.length (by omega)
    obtain ⟨v, hv, hg⟩ := getOne_of_lt intn m hlt
    exact ⟨intn m.reg.inner.length, v, by rw [hg], hlt, hv⟩
  have h2 : m.reg.inner.length = 0 →
      (getOne intn m).1 = Selected.crashed "invalid argument to Intn" := by
    intro h0
    unfold getOne
    rw [if_pos h0]
  refine ⟨h1, h2, ?_⟩
  constructor
  · rintro ⟨i, v, hiv⟩
    by_contra hc
    rw [h2 (by omega)] at hiv
    exact Selected.noConfusion hiv
  · intro hK
    obtain ⟨i, v, hiv, _⟩ := h1 hK
    exact ⟨i, v, hiv⟩

theorem getOne_in_bounds_iff_nonempty_witness :
    (∀ n, 0 < n → (fun n => n - 1) n < n) ∧
    (∃ i v, (getOne (fun n => n - 1) twoMachine).1 = Selected.ref i v ∧
      i < twoMachine.reg.inner.length ∧ twoMachine.reg.inner[i]? = some v) ∧
    (getOne (fun n => n - 1) emptyMachine).1 = Selected.crashed "invalid argument to Intn" :=
  ⟨fun n hn => by simp only; omega,
    (getOne_in_bounds_iff_nonempty twoMachine (fun n => n - 1)
      (fun n hn => by simp only; omega)).1 (by decide),
    (getOne_in_bounds_iff_nonempty emptyMachine (fun n => n - 1)
      (fun n hn => by simp only; omega)).2.1 (by decide)⟩

/-! ## Entry names are pairwise distinct -/

/-- C18. In every state reachable from the empty registry by any sequence of
`registerServer` calls, with any names and stamps and whatever their outcome,
and of `refresh` calls, the entry names are pairwise distinct; and they still
are after one more call of either operation, even one that ends the process. -/
theorem reachable_entry_names_distinct (env : Env) (m : Machine) (h : Reachable env m) :
    (m.reg.inner.map (fun x => x.Name)).Nodup ∧
    (∀ (i j : Nat) (x y : ServerInfo), m.reg.inner[i]? = some x → m.reg.inner[j]? = some y →
      x.Name = y.Name → i = j) ∧
    (∀ (proxy : Proxy) (name : String) (stamp : ServerStamp),
      ((registerServer env proxy name stamp m).2.reg.inner.map (fun x => x.Name)).Nodup) ∧
    (∀ proxy : Proxy, ((refresh env proxy m).2.reg.inner.map (fun x => x.Name)).Nodup) := by
  have hnd := reachable_names_nodup env m h
  refine ⟨hnd, ?_, fun proxy name stamp => registerServer_names_nodup env proxy name stamp m hnd,
    fun proxy => refreshLoop_names_nodup env proxy _ (refreshStart m) hnd⟩
  intro i j x y hx hy hxy
  have hi : (m.reg.inner.map (fun x => x.Name))[i]? = some x.Name := by
    rw [List.getElem?_map, hx]; rfl
  have hj : (m.reg.inner.map (fun x => x.Name))[j]? = some x.Name := by
    rw [List.getElem?_map, hy, hxy]; rfl
  have hil := getElem?_some_lt _ i _ hi
  have hjl := getElem?_some_lt _ j _ hj
  rw [List.getElem?_eq_getElem hil, Option.some.injEq] at hi
  rw [List.getElem?_eq_getElem hjl, Option.some.injEq] at hj
  exact (List.Nodup.getElem_inj_iff hnd).1 (hi.trans hj.symm)

theorem reachable_entry_names_distinct_witness :
    Reachable okEnv sampleMachine ∧
    (sampleMachine.reg.inner.map (fun x => x.Name)).Nodup ∧
    ((registerServer okEnv sampleProxy "a" stampA2 sampleMachine).2.reg.inner.map
      (fun x => x.Name)).Nodup :=
  ⟨reachable_sampleMachine,
    (reachable_entry_names_distinct okEnv sampleMachine reachable_sampleMachine).1,
    (reachable_entry_names_distinct okEnv sampleMachine reachable_sampleMachine).2.2.1
      sampleProxy "a" stampA2⟩

/-! ## A pass of `refresh` over aligned collections -/

theorem registerServer_valid_not_fatal (env : Env) (proxy : Proxy) (name : String)
    (stamp : ServerStamp) (m : Machine) (hv : ValidPk stamp) :
    ∀ text, (registerServer env proxy name stamp m).1 ≠ Res.fatal text := by
  intro text hc
  cases hf : (fetchServerInfo env proxy name stamp m.log).1 with
  | ok info => rw [registerServer_of_ok env proxy name stamp m info hf] at hc; simp at hc
  | err e => rw [registerServer_of_err env proxy name stamp m e hf] at hc; simp at hc
  | fatal t => exact ((fetchServerInfo_fatal_iff env proxy name stamp m.log t).1 hf).1 hv

theorem registerServer_present_frame (env : Env) (proxy : Proxy) (name : String)
    (stamp : ServerStamp) (m : Machine) (hex : ∃ x ∈ m.reg.inner, x.Name = name) :
    (registerServer env proxy name stamp m).2.reg.inner.map (fun x => x.Name) =
      m.reg.inner.map (fun x => x.Name) ∧
    (registerServer env proxy name stamp m).2.reg.serverStamps = m.reg.serverStamps := by
  rcases registerServer_frame env proxy name stamp m with h | ⟨_, _, hnew, _, _⟩
  · exact h
  · obtain ⟨x, hx, hxn⟩ := hex
    exact absurd hxn (hnew x hx)

/-- The loop of `refresh` over stamps each of whose names has an entry: whatever
the outcomes, the entry names and the stamp collection stay as they are. -/
theorem refreshLoop_present_frame (env : Env) (proxy : Proxy) (stamps : List ServerStamp)
    (m : Machine) (hex : ∀ st ∈ stamps, st.name ∈ m.reg.inner.map (fun x => x.Name)) :
    (refreshLoop env proxy stamps m).2.reg.inner.map (fun x => x.Name) =
      m.reg.inner.map (fun x => x.Name) ∧
    (refreshLoop env proxy stamps m).2.reg.serverStamps = m.reg.serverStamps := by
  induction stamps generalizing m with
  | nil => exact ⟨rfl, rfl⟩
  | cons st rest ih =>
    have hst : ∃ x ∈ m.reg.inner, x.Name = st.name := by
      obtain ⟨x, hx, hxn⟩ := List.mem_map.1 (hex st (List.mem_cons_self _ _))
      exact ⟨x, hx, hxn⟩
    obtain ⟨h1, h2⟩ := registerServer_present_frame env proxy st.name st m hst
    unfold refreshLoop
    split
    · rename_i text m1 heq
      rw [heq] at h1 h2
      exact ⟨h1, h2⟩
    · rename_i r m1 _ heq
      rw [heq] at h1 h2
      have hex1 : ∀ st2 ∈ rest, st2.name ∈ m1.reg.inner.map (fun x => x.Name) := by
        intro st2 hst2
        rw [h1]
        exact hex st2 (List.mem_cons_of_mem _ hst2)
      obtain ⟨g1, g2⟩ := ih m1 hex1
      exact ⟨g1.trans h1, g2.trans h2⟩

/-- The loop of `refresh` over stamps with valid keys runs to its end and makes
one call of `registerServer` per stamp, in the order of the stamps, each in the
state the call before it left. -/
theorem refreshLoop_valid (env : Env) (proxy : Proxy) (stamps : List ServerStamp)
    (m : Machine) (hv : ∀ st ∈ stamps, ValidPk st) :
    (refreshLoop env proxy stamps m).1 = Res.ok () ∧
    (refreshStates env proxy stamps m).length = stamps.length ∧
    (refreshStates env proxy stamps m ++ [(refreshLoop env proxy stamps m).2])[0]? = some m ∧
    (∀ (i : Nat) (st : ServerStamp) (pre : Machine), stamps[i]? = some st →
      (refreshStates env proxy stamps m)[i]? = some pre →
      (refreshStates env proxy stamps m ++ [(refreshLoop env proxy stamps m).2])[i + 1]? =
        some (registerServer env proxy st.name st pre).2) := by
  induction stamps generalizing m with
  | nil =>
    refine ⟨rfl, rfl, rfl, ?_⟩
    intro i st pre hst
    simp at hst
  | cons stamp rest ih =>
    have hnf := registerServer_valid_not_fatal env proxy stamp.name stamp m
      (hv stamp (List.mem_cons_self _ _))
    obtain ⟨i1, i2, i3, i4⟩ := ih (registerServer env proxy stamp.name stamp m).2
      (fun st hst => hv st (List.mem_cons_of_mem _ hst))
    rw [refreshLoop_cons env proxy stamp rest m hnf, refreshStates_cons env proxy stamp rest m hnf]
    refine ⟨i1, by simp [i2], by simp, ?_⟩
    intro i st pre hst hpre
    cases i with
    | zero =>
      simp only [List.getElem?_cons_zero, Option.some.injEq] at hst hpre
      subst hst hpre
      simpa using i3
    | succ k =>
      simp only [List.getElem?_cons_succ] at hst hpre
      have := i4 k st pre hst hpre
      simpa using this

theorem names_eq_of_indexwise (reg : ServersInfo)
    (hlen : reg.inner.length = reg.serverStamps.length)
    (hnames : ∀ (i : Nat) (x : ServerInfo) (st : ServerStamp), reg.inner[i]? = some x →
      reg.serverStamps[i]? = some st → st.name = x.Name) :
    reg.inner.map (fun x => x.Name) = reg.serverStamps.map (fun st => st.name) := by
  apply List.ext_getElem?
  intro i
  rw [List.getElem?_map, List.getElem?_map]
  cases hx : reg.inner[i]? with
  | none =>
    have h1 : reg.inner.length ≤ i := List.getElem?_eq_none_iff.1 hx
    have h2 : reg.serverStamps[i]? = none := List.getElem?_eq_none_iff.2 (by omega)
    rw [h2]
    rfl
  | some x =>
    have h1 : i < reg.inner.length := getElem?_some_lt _ i x hx
    have h2 : i < reg.serverStamps.length := by omega
    rw [List.getElem?_eq_getElem h2]
    simp only [Option.map_some', Option.some.injEq]
    exact (hnames i x _ hx (List.getElem?_eq_getElem h2)).symm

/-! ## Which stamp a pass of `refresh` uses -/

theorem registerServer_stamps_valid (env : Env) (proxy : Proxy) (name : String)
    (stamp : ServerStamp) (m : Machine) (h : ∀ st ∈ m.reg.serverStamps, ValidPk st) :
    ∀ st ∈ (registerServer env proxy name stamp m).2.reg.serverStamps, ValidPk st := by
  rcases registerServer_frame env proxy name stamp m with ⟨_, h2⟩ | ⟨info, hf, _, _, h2⟩
  · rw [h2]
    exact h
  · rw [h2]
    intro st hst
    rcases List.mem_append.1 hst with hst | hst
    · exact h st hst
    · rw [List.mem_singleton.1 hst]
      exact ((fetchServerInfo_ok_iff env proxy name stamp m.log info).1 hf).1

theorem refreshLoop_stamps_valid (env : Env) (proxy : Proxy) (stamps : List ServerStamp)
    (m : Machine) (h : ∀ st ∈ m.reg.serverStamps, ValidPk st) :
    ∀ st ∈ (refreshLoop env proxy stamps m).2.reg.serverStamps, ValidPk st := by
  induction stamps generalizing m with
  | nil => exact h
  | cons stamp rest ih =>
    have h1 := registerServer_stamps_valid env proxy stamp.name stamp m h
    unfold refreshLoop
    split
    · rename_i text m1 heq
      rw [heq] at h1
      exact h1
    · rename_i r m1 _ heq
      rw [heq] at h1
      exact ih m1 h1

/-- Only stamps that passed the key check are ever recorded. -/
theorem reachable_stamps_valid (env : Env) (m : Machine) (h : Reachable env m) :
    ∀ st ∈ m.reg.serverStamps, ValidPk st := by
  induction h with
  | start =>
    intro st hst
    simp [emptyMachine] at hst
  | register m proxy name stamp _ _ ih =>
    exact registerServer_stamps_valid env proxy name stamp m ih
  | refresh m proxy _ _ ih =>
    exact refreshLoop_stamps_valid env proxy _ (refreshStart m) ih

theorem refreshLoop_append (env : Env) (proxy : Proxy) (l1 l2 : List ServerStamp)
    (m : Machine) (hv : ∀ st ∈ l1, ValidPk st) :
    refreshLoop env proxy (l1 ++ l2) m =
      refreshLoop env proxy l2 (refreshLoop env proxy l1 m).2 := by
  induction l1 generalizing m with
  | nil => rfl
  | cons stamp rest ih =>
    have hnf := registerServer_valid_not_fatal env proxy stamp.name stamp m
      (hv stamp (List.mem_cons_self _ _))
    rw [List.cons_append, refreshLoop_cons env proxy stamp (rest ++ l2) m hnf,
      refreshLoop_cons env proxy stamp rest m hnf]
    exact ih _ (fun st hst => hv st (List.mem_cons_of_mem _ hst))

/-- After a successful `fetchServerInfo` the three collaborator calls, with the
address of the stamp, are in the history. -/
theorem fetchServerInfo_log_resolvers (env : Env) (proxy : Proxy) (name : String)
    (stamp : ServerStamp) (log : List Event) (hv : ValidPk stamp) (c : CertInfo)
    (u : UDPAddr) (t : TCPAddr) (hc : negotiate env proxy stamp log = Reply.ok c)
    (hu : resolveUDP env proxy stamp log = Reply.ok u)
    (ht : resolveTCP env proxy stamp log = Reply.ok t) :
    Event.fetchCurrentCert proxy (decodedPk stamp) stamp.serverAddrStr stamp.providerName
      (Reply.ok c) ∈ (fetchServerInfo env proxy name stamp log).2 ∧
    Event.resolveUDPAddr "udp" stamp.serverAddrStr (Reply.ok u) ∈
      (fetchServerInfo env proxy name stamp log).2 ∧
    Event.resolveTCPAddr "tcp" stamp.serverAddrStr (Reply.ok t) ∈
      (fetchServerInfo env proxy name stamp log).2 := by
  rw [fetchServerInfo_valid env proxy name stamp log hv, hc, hu, ht]
  simp only [logAfterTCP, logAfterUDP, logAfterCert, hc, hu, ht]
  simp

/-- C17. Refresh renegotiates with the first stamp recorded for a name, not
with the latest. In a reachable state where the name of `s1` has no entry, let
`s1` be registered successfully under its name and then any stamp `s2` be
registered successfully under the same name. The stamp collection then ends
with `s1`, and `s2` is not recorded by its call. The pass of `refresh` that
follows runs to its end, and its last registration is that of `s1`: the
Negotiator is called with the key, address and provider name of `s1`, and when
that call and the two resolutions of the address of `s1` succeed, the one entry
bearing the name is the `ServerInfo` assembled from their answers. -/
theorem refresh_uses_first_stamp (env : Env) (m : Machine) (hm : Reachable env m)
    (proxy1 proxy2 proxy : Proxy) (s1 s2 : ServerStamp)
    (hnew : ∀ x ∈ m.reg.inner, x.Name ≠ s1.name)
    (h1 : (registerServer env proxy1 s1.name s1 m).1 = Res.ok ())
    (h2 : (registerServer env proxy2 s1.name s2
      (registerServer env proxy1 s1.name s1 m).2).1 = Res.ok ()) :
    (registerServer env proxy1 s1.name s1 m).2.reg.serverStamps = m.reg.serverStamps ++ [s1] ∧
    (registeredTwice env proxy1 proxy2 s1 s2 m).reg.serverStamps =
      m.reg.serverStamps ++ [s1] ∧
    refresh env proxy (registeredTwice env proxy1 proxy2 s1 s2 m) =
      (Res.ok (), (registerServer env proxy s1.name s1
        (refreshedThrough env proxy m.reg.serverStamps
          (registeredTwice env proxy1 proxy2 s1 s2 m))).2) ∧
    Event.fetchCurrentCert proxy (decodedPk s1) s1.serverAddrStr s1.providerName
      (negotiate env proxy s1 (refreshedThrough env proxy m.reg.serverStamps
        (registeredTwice env proxy1 proxy2 s1 s2 m)).log) ∈
      (refresh env proxy (registeredTwice env proxy1 proxy2 s1 s2 m)).2.log ∧
    (∀ (c : CertInfo) (u : UDPAddr) (t : TCPAddr),
      negotiate env proxy s1 (refreshedThrough env proxy m.reg.serverStamps
        (registeredTwice env proxy1 proxy2 s1 s2 m)).log = Reply.ok c →
      resolveUDP env proxy s1 (refreshedThrough env proxy m.reg.serverStamps
        (registeredTwice env proxy1 proxy2 s1 s2 m)).log = Reply.ok u →
      resolveTCP env proxy s1 (refreshedThrough env proxy m.reg.serverStamps
        (registeredTwice env proxy1 proxy2 s1 s2 m)).log = Reply.ok t →
      (refresh env proxy (registeredTwice env proxy1 proxy2 s1 s2 m)).2.reg.inner.filter
        (fun x => x.Name = s1.name) = [assemble env s1.name c u t] ∧
      Event.resolveUDPAddr "udp" s1.serverAddrStr (Reply.ok u) ∈
        (refresh env proxy (registeredTwice env proxy1 proxy2 s1 s2 m)).2.log ∧
      Event.resolveTCPAddr "tcp" s1.serverAddrStr (Reply.ok t) ∈
        (refresh env proxy (registeredTwice env proxy1 proxy2 s1 s2 m)).2.log) := by
  -- the first registration appends, the second overwrites
  obtain ⟨info1, hf1⟩ := (registerServer_ok_iff env proxy1 s1.name s1 m).1 h1
  have hv1 : ValidPk s1 := ((fetchServerInfo_ok_iff env proxy1 s1.name s1 m.log info1).1 hf1).1
  have hst1 : (registerServer env proxy1 s1.name s1 m).2.reg.serverStamps =
      m.reg.serverStamps ++ [s1] := by
    rcases registerServer_frame env proxy1 s1.name s1 m with ⟨hn, _⟩ | ⟨_, _, _, _, hs⟩
    · exfalso
      obtain ⟨x, hx, hxn⟩ := registerServer_ok_has_name env proxy1 s1.name s1 m h1
      have : x.Name ∈ m.reg.inner.map (fun x => x.Name) := by
        rw [← hn]
        exact List.mem_map.2 ⟨x, hx, rfl⟩
      obtain ⟨y, hy, hyn⟩ := List.mem_map.1 this
      exact hnew y hy (hyn.trans hxn)
    · exact hs
  have hst2 : (registeredTwice env proxy1 proxy2 s1 s2 m).reg.serverStamps =
      m.reg.serverStamps ++ [s1] := by
    unfold registeredTwice
    rw [(registerServer_present_frame env proxy2 s1.name s2 _
      (registerServer_ok_has_name env proxy1 s1.name s1 m h1)).2]
    exact hst1
  -- the state after the two registrations is reachable
  have hm1 : Reachable env (registerServer env proxy1 s1.name s1 m).2 :=
    Reachable.register m proxy1 s1.name s1 hm (not_fatal_of_ok _ h1)
  have hm2 : Reachable env (registeredTwice env proxy1 proxy2 s1 s2 m) :=
    Reachable.register _ proxy2 s1.name s2 hm1 (not_fatal_of_ok _ h2)
  have hvalid := reachable_stamps_valid env _ hm2
  rw [hst2] at hvalid
  have hvm : ∀ st ∈ m.reg.serverStamps, ValidPk st :=
    fun st hst => hvalid st (List.mem_append_left _ hst)
  -- the pass handles the earlier stamps, then `s1`
  have hloop : refresh env proxy (registeredTwice env proxy1 proxy2 s1 s2 m) =
      refreshLoop env proxy [s1] (refreshedThrough env proxy m.reg.serverStamps
        (registeredTwice env proxy1 proxy2 s1 s2 m)) := by
    show refreshLoop env proxy (registeredTwice env proxy1 proxy2 s1 s2 m).reg.serverStamps
      (refreshStart (registeredTwice env proxy1 proxy2 s1 s2 m)) = _
    rw [hst2, refreshLoop_append env proxy m.reg.serverStamps [s1] _ hvm]
    rfl
  have hnf := registerServer_valid_not_fatal env proxy s1.name s1
    (refreshedThrough env proxy m.reg.serverStamps
      (registeredTwice env proxy1 proxy2 s1 s2 m)) hv1
  have hlast : refresh env proxy (registeredTwice env proxy1 proxy2 s1 s2 m) =
      (Res.ok (), (registerServer env proxy s1.name s1
        (refreshedThrough env proxy m.reg.serverStamps
          (registeredTwice env proxy1 proxy2 s1 s2 m))).2) := by
    rw [hloop, refreshLoop_cons env proxy s1 [] _ hnf]
    rfl
  -- the state before the last registration: distinct names, the name present
  have hnd : ((refreshedThrough env proxy m.reg.serverStamps
      (registeredTwice env proxy1 proxy2 s1 s2 m)).reg.inner.map (fun x => x.Name)).Nodup :=
    refreshLoop_names_nodup env proxy _
      (refreshStart (registeredTwice env proxy1 proxy2 s1 s2 m))
      (reachable_names_nodup env (registeredTwice env proxy1 proxy2 s1 s2 m) hm2)
  have hex : ∃ x ∈ (refreshedThrough env proxy m.reg.serverStamps
      (registeredTwice env proxy1 proxy2 s1 s2 m)).reg.inner, x.Name = s1.name := by
    obtain ⟨x, hx, hxn⟩ := registerServer_ok_has_name env proxy2 s1.name s2 _ h2
    obtain ⟨⟨t, ht⟩, _⟩ := refreshLoop_grows env proxy m.reg.serverStamps
      (refreshStart (registeredTwice env proxy1 proxy2 s1 s2 m))
    have : x.Name ∈ (refreshedThrough env proxy m.reg.serverStamps
        (registeredTwice env proxy1 proxy2 s1 s2 m)).reg.inner.map (fun x => x.Name) := by
      unfold refreshedThrough
      rw [ht]
      exact List.mem_append_left _ (List.mem_map.2 ⟨x, hx, rfl⟩)
    obtain ⟨y, hy, hyn⟩ := List.mem_map.1 this
    exact ⟨y, hy, hyn.trans hxn⟩
  refine ⟨hst1, hst2, hlast, ?_, ?_⟩
  · rw [hlast]
    simp only
    rw [registerServer_log]
    exact fetchServerInfo_log_cert env proxy s1.name s1 _ hv1
  · intro c u t hc hu ht
    have hf : (fetchServerInfo env proxy s1.name s1
        (refreshedThrough env proxy m.reg.serverStamps
          (registeredTwice env proxy1 proxy2 s1 s2 m)).log).1 =
        Res.ok (assemble env s1.name c u t) := by
      rw [fetchServerInfo_valid env proxy s1.name s1 _ hv1, hc, hu, ht]
    obtain ⟨_, e2, e3⟩ := fetchServerInfo_log_resolvers env proxy s1.name s1 _ hv1 c u t hc hu ht
    rw [hlast]
    simp only
    refine ⟨?_, ?_, ?_⟩
    · rw [registerServer_of_ok env proxy s1.name s1 _ _ hf]
      have hex2 : ∃ x ∈ (refreshedThrough env proxy m.reg.serverStamps
          (registeredTwice env proxy1 proxy2 s1 s2 m)).reg.inner,
          x.Name = (assemble env s1.name c u t).Name := hex
      rw [replaceByName_nodup _ _ hnd hex2]
      exact filter_name_after_update s1.name _ _ rfl hnd hex
    · rw [registerServer_log]
      exact e2
    · rw [registerServer_log]
      exact e3

theorem refresh_uses_first_stamp_witness :
    Reachable okEnv onlyB ∧
    (∀ x ∈ onlyB.reg.inner, x.Name ≠ stampA.name) ∧
    (registerServer okEnv sampleProxy stampA.name stampA onlyB).1 = Res.ok () ∧
    (registerServer okEnv sampleProxy stampA.name stampA3
      (registerServer okEnv sampleProxy stampA.name stampA onlyB).2).1 = Res.ok () ∧
    (registeredTwice okEnv sampleProxy sampleProxy stampA stampA3 onlyB).reg.serverStamps =
      [stampB, stampA] ∧
    (registeredTwice okEnv sampleProxy sampleProxy stampA stampA3 onlyB).reg.inner.filter
      (fun x => x.Name = "a") =
      [assemble okEnv "a"
        { MagicQuery := [113, 55], ServerPk := decodedPk stampA3, SharedKey := [6],
          CryptoConstruction := 1 }
        (sampleUDP stampA3.serverAddrStr) (sampleTCP stampA3.serverAddrStr)] ∧
    (refresh okEnv sampleProxy
      (registeredTwice okEnv sampleProxy sampleProxy stampA stampA3 onlyB)).2.reg.inner.filter
      (fun x => x.Name = "a") =
      [assemble okEnv "a"
        { MagicQuery := [113, 55], ServerPk := decodedPk stampA, SharedKey := [13],
          CryptoConstruction := 1 }
        (sampleUDP stampA.serverAddrStr) (sampleTCP stampA.serverAddrStr)] ∧
    sampleUDP stampA.serverAddrStr ≠ sampleUDP stampA3.serverAddrStr ∧
    decodedPk stampA ≠ decodedPk stampA3 := by
  have hreach : Reachable okEnv onlyB :=
    Reachable.register emptyMachine sampleProxy "b" stampB Reachable.start
      (not_fatal_of_ok _ (by decide))
  have h := refresh_uses_first_stamp okEnv onlyB hreach sampleProxy sampleProxy sampleProxy
    stampA stampA3 (by decide) (by decide) (by decide)
  have h5 := (h.2.2.2.2
    { MagicQuery := [113, 55], ServerPk := decodedPk stampA, SharedKey := [13],
      CryptoConstruction := 1 }
    (sampleUDP stampA.serverAddrStr) (sampleTCP stampA.serverAddrStr)
    (by decide) (by decide) (by decide)).1
  exact ⟨hreach, by decide, by decide, by decide, h.2.1, by decide, h5, by decide, by decide⟩

/-! ## A pass of `refresh` keeps aligned collections as they are -/

/-- C19. For every state of a running registry in which the two collections
have the same length and, at every index, the stamp's name is the entry's
name: a pass of `refresh`, whatever the Negotiator and the resolvers answer,
runs to its end and makes exactly one call of `registerServer` per stamp of
the snapshot, under the stamp's name and in the order of the snapshot, each in
the state left by the call before it; and it leaves the stamp collection, the
entry count and the order of the entry names as they were. Without the
alignment a pass may append: on the reachable state `misnamed`, whose stamp was
registered under another name, it adds one entry and one stamp. -/
theorem refresh_aligned_frame (env : Env) (proxy : Proxy) (m : Machine)
    (hm : Reachable env m)
    (hlen : m.reg.inner.length = m.reg.serverStamps.length)
    (hnames : ∀ (i : Nat) (x : ServerInfo) (st : ServerStamp), m.reg.inner[i]? = some x →
      m.reg.serverStamps[i]? = some st → st.name = x.Name) :
    (refresh env proxy m).1 = Res.ok () ∧
    (refreshStates env proxy m.reg.serverStamps (refreshStart m)).length =
      m.reg.serverStamps.length ∧
    (refreshStates env proxy m.reg.serverStamps (refreshStart m) ++
      [(refresh env proxy m).2])[0]? = some (refreshStart m) ∧
    (∀ (i : Nat) (st : ServerStamp) (pre : Machine), m.reg.serverStamps[i]? = some st →
      (refreshStates env proxy m.reg.serverStamps (refreshStart m))[i]? = some pre →
      (refreshStates env proxy m.reg.serverStamps (refreshStart m) ++
        [(refresh env proxy m).2])[i + 1]? =
          some (registerServer env proxy st.name st pre).2) ∧
    (refresh env proxy m).2.reg.serverStamps = m.reg.serverStamps ∧
    (refresh env proxy m).2.reg.inner.length = m.reg.inner.length ∧
    (refresh env proxy m).2.reg.inner.map (fun x => x.Name) =
      m.reg.inner.map (fun x => x.Name) ∧
    (Reachable okEnv misnamed ∧
      (refresh okEnv sampleProxy misnamed).2.reg.inner.length =
        misnamed.reg.inner.length + 1 ∧
      (refresh okEnv sampleProxy misnamed).2.reg.serverStamps.length =
        misnamed.reg.serverStamps.length + 1) := by
  have hmap := names_eq_of_indexwise m.reg hlen hnames
  have hex : ∀ st ∈ (refreshStart m).reg.serverStamps,
      st.name ∈ (refreshStart m).reg.inner.map (fun x => x.Name) := by
    intro st hst
    show st.name ∈ m.reg.inner.map (fun x => x.Name)
    rw [hmap]
    exact List.mem_map.2 ⟨st, hst, rfl⟩
  obtain ⟨f1, f2⟩ := refreshLoop_present_frame env proxy m.reg.serverStamps (refreshStart m) hex
  obtain ⟨v1, v2, v3, v4⟩ := refreshLoop_valid env proxy m.reg.serverStamps (refreshStart m)
    (reachable_stamps_valid env m hm)
  have hloop : refresh env proxy m =
      refreshLoop env proxy m.reg.serverStamps (refreshStart m) := rfl
  rw [hloop]
  refine ⟨v1, v2, v3, v4, f2, ?_, f1, ?_⟩
  · have := congrArg List.length f1
    simpa using this
  · exact ⟨Reachable.register emptyMachine sampleProxy "x" stampA Reachable.start
      (not_fatal_of_ok _ (by decide)), by decide, by decide⟩

theorem refresh_aligned_frame_witness :
    Reachable okEnv twoMachine ∧
    twoMachine.reg.inner.length = twoMachine.reg.serverStamps.length ∧
    twoMachine.reg.inner.map (fun x => x.Name) =
      twoMachine.reg.serverStamps.map (fun st => st.name) ∧
    (refresh okEnv sampleProxy twoMachine).1 = Res.ok () ∧
    (refreshStates okEnv sampleProxy twoMachine.reg.serverStamps
      (refreshStart twoMachine)).length = twoMachine.reg.serverStamps.length ∧
    (refresh okEnv sampleProxy twoMachine).2.reg.serverStamps =
      twoMachine.reg.serverStamps ∧
    (refresh okEnv sampleProxy twoMachine).2.reg.inner.map (fun x => x.Name) =
      twoMachine.reg.inner.map (fun x => x.Name) := by
  have hreach : Reachable okEnv twoMachine :=
    Reachable.register sampleMachine sampleProxy "b" stampB reachable_sampleMachine
      (not_fatal_of_ok _ (by decide))
  have hnames : ∀ (i : Nat) (x : ServerInfo) (st : ServerStamp),
      twoMachine.reg.inner[i]? = some x → twoMachine.reg.serverStamps[i]? = some st →
      st.name = x.Name := by
    intro i x st hx hst
    have h1 : twoMachine.reg.serverStamps = [stampA, stampB] := by decide
    have h2 : twoMachine.reg.inner.map (fun x => x.Name) = ["a", "b"] := by decide
    have h3 : (twoMachine.reg.inner.map (fun x => x.Name))[i]? = some x.Name := by
      rw [List.getElem?_map, hx]; rfl
    rw [h1] at hst
    rw [h2] at h3
    match i, hst, h3 with
    | 0, hst, h3 =>
      simp only [List.getElem?_cons_zero, Option.some.injEq] at hst h3
      rw [← hst, ← h3]; rfl
    | 1, hst, h3 =>
      simp only [List.getElem?_cons_succ, List.getElem?_cons_zero, Option.some.injEq] at hst h3
      rw [← hst, ← h3]; rfl
    | i + 2, hst, _ => simp at hst
  have h := refresh_aligned_frame okEnv sampleProxy twoMachine hreach (by decide) hnames
  exact ⟨hreach, by decide, by decide, h.1, h.2.1, h.2.2.2.2.1, h.2.2.2.2.2.2.1⟩

end ServersInfoModel
